import Mathlib

/-!
# Verification of the figma-to-react-mcp orchestration core

This development gives a shallow embedding, in Lean 4, of the parts of the
figma-to-react-mcp repository that the specification makes checkable claims
about, and settles each claim against the embedded code.

Embedded components (file references are to the repository source):

* the response cache (`src/integrations/figma.ts`, `setCache`/`getCache`);
* the screenshot comparison engine
  (`src/integrations/playwright.ts`, `compareScreenshots`, `runVisualTest`);
* the browser context pool (`src/integrations/playwright.ts`,
  `getContext`/`releaseContext`/`initialize`/`close`);
* the GitHub commit pipeline (`src/integrations/github.ts`, `createCommit`);
* the workflow orchestrator (`src/services/workflow.ts`);
* the Figma URL parser (`src/utils/figma-parser.ts`,
  `extractNodeId`/`decodeNodeId`/`createFigmaUrl`);
* design token extraction (`src/integrations/figma.ts`,
  `processNodeForTokens`/`extractDesignTokensOptimized`).

Machine integers of the source (JS numbers used as counters, timestamps,
pixel counts) are modelled as `Nat`/`Int`; fractional JS numbers (pixel
color components, thresholds, similarity percentages) as `Rat`.  File
system and network effects are modelled by explicit state passing or by
oracle parameters that stand for the outcome of the external call.
-/

/-- The uniform result envelope of the source (`ToolResult` in
`src/types/index.ts`): a success flag with a payload on success and an
error string on failure. -/
inductive ToolResult (α : Type) where
  | success (data : α)
  | failure (error : String)
  deriving Repr, DecidableEq

/-- Outcome of a promise in `Promise.allSettled`: either fulfilled with a
value or rejected with a reason. -/
inductive Settled (α : Type) where
  | fulfilled (value : α)
  | rejected (reason : String)
  deriving Repr, DecidableEq

/-- Association-list lookup with decidable key equality; first binding
wins, mirroring a JS `Map` in which keys are unique. -/
def alookup {κ α : Type} [DecidableEq κ] (k : κ) : List (κ × α) → Option α
  | [] => none
  | (k', v) :: rest => if k' = k then some v else alookup k rest

/-- `Map.set` semantics: update the binding in place when the key is
present, append a fresh binding otherwise. -/
def aset {κ α : Type} [DecidableEq κ] (k : κ) (v : α) : List (κ × α) → List (κ × α)
  | [] => [(k, v)]
  | (k', v') :: rest => if k' = k then (k, v) :: rest else (k', v') :: aset k v rest

/-- `Map.delete` semantics: remove the binding for one key. -/
def aerase {κ α : Type} [DecidableEq κ] (k : κ) (l : List (κ × α)) : List (κ × α) :=
  l.filter (fun p => p.1 ≠ k)

theorem alookup_aset_self {κ α : Type} [DecidableEq κ] (k : κ) (v : α) (l : List (κ × α)) :
    alookup k (aset k v l) = some v := by
  induction l with
  | nil => simp [aset, alookup]
  | cons p rest ih =>
    obtain ⟨k', v'⟩ := p
    by_cases h : k' = k
    · simp [aset, alookup, h]
    · simp [aset, alookup, h, ih]

theorem alookup_append {κ α : Type} [DecidableEq κ] (k : κ) (l₁ l₂ : List (κ × α)) :
    alookup k (l₁ ++ l₂) = (alookup k l₁).or (alookup k l₂) := by
  induction l₁ with
  | nil => simp [alookup]
  | cons p rest ih =>
    obtain ⟨k', v'⟩ := p
    by_cases h : k' = k
    · simp [alookup, h]
    · simp [alookup, h, ih]

theorem alookup_append_of_some {κ α : Type} [DecidableEq κ] {k : κ} {l₁ : List (κ × α)}
    {v : α} (h : alookup k l₁ = some v) (l₂ : List (κ × α)) :
    alookup k (l₁ ++ l₂) = some v := by
  rw [alookup_append, h, Option.or]

theorem alookup_append_of_fresh {κ α : Type} [DecidableEq κ] {k : κ} {l₂ : List (κ × α)}
    (l₁ : List (κ × α)) (h : ∀ p ∈ l₂, p.1 ≠ k) :
    alookup k (l₁ ++ l₂) = alookup k l₁ := by
  rw [alookup_append]
  have h₂ : alookup k l₂ = none := by
    induction l₂ with
    | nil => simp [alookup]
    | cons p rest ih =>
      obtain ⟨k', v'⟩ := p
      have hk : k' ≠ k := h (k', v') (List.mem_cons_self _ _)
      simp only [alookup, if_neg hk]
      exact ih (fun q hq => h q (List.mem_cons_of_mem _ hq))
  rw [h₂]
  cases alookup k l₁ <;> rfl

/-! ## C6 — Response cache (`src/integrations/figma.ts` lines 11-15, 71-89)

`setCache`/`getCache` of `FigmaIntegration`, with `Date.now()` passed
explicitly as `now`.  An entry is expired exactly when
`now - entry.timestamp > entry.ttl`; an expired entry is deleted and
reported absent, exactly as an unknown key is. -/

/-- `CacheEntry<T>` of the source: payload, creation timestamp, ttl. -/
structure CacheEntry (α : Type) where
  data : α
  timestamp : Nat
  ttl : Nat
  deriving Repr, DecidableEq

/-- The private `cache` map of `FigmaIntegration`. -/
def Cache (α : Type) : Type := List (String × CacheEntry α)

/-- `setCache(key, data, ttl)` at time `now`. -/
def setCache {α : Type} (c : Cache α) (key : String) (d : α) (ttl now : Nat) : Cache α :=
  aset key { data := d, timestamp := now, ttl := ttl } c

/-- `getCache(key)` at time `now`: absent for unknown keys; expired
entries (`now - timestamp > ttl`) are deleted and reported absent;
otherwise the stored payload is returned. -/
def getCache {α : Type} (c : Cache α) (key : String) (now : Nat) : Option α × Cache α :=
  match alookup key c with
  | none => (none, c)
  | some e => if now - e.timestamp > e.ttl then (none, aerase key c) else (some e.data, c)

/-- C6: for every key `k`, value `v` and `ttl`, a `getCache k` performed
while the elapsed time since `setCache k v ttl` is within the ttl window
returns `v`, and one performed after the ttl has elapsed returns`none` —
exactly the result for a key that was never set, so the two cases are
indistinguishable to the caller. -/
theorem getCache_after_setCache {α : Type} (c : Cache α) (k : String) (v : α)
    (ttl t₀ t : Nat) (h : t₀ ≤ t) :
    ((getCache (setCache c k v ttl t₀) k t).1 =
        if t - t₀ ≤ ttl then some v else none) ∧
      (∀ c' : Cache α, alookup k c' = none → (getCache c' k t).1 = none) := by
  constructor
  · unfold getCache setCache
    rw [alookup_aset_self]
    by_cases hle : t - t₀ ≤ ttl
    · simp [hle, Nat.not_lt.mpr hle]
    · simp [hle, Nat.lt_of_not_le hle]
  · intro c' hc'
    unfold getCache
    rw [hc']

/-- Witness for C6 at concrete inputs: ttl window of 300000 ms, set at
time 1000, read at time 2000 (inside) — value returned; and a read of a
never-set key is absent. -/
theorem getCache_after_setCache_witness :
    ((getCache (setCache ([] : Cache Nat) "files-abc" 7 300000 1000) "files-abc" 2000).1 =
        if 2000 - 1000 ≤ 300000 then some 7 else none) ∧
      (∀ c' : Cache Nat, alookup "files-abc" c' = none →
        (getCache c' "files-abc" 2000).1 = none) :=
  getCache_after_setCache ([] : Cache Nat) "files-abc" 7 300000 1000 2000 (by decide)

/-! ## C4 — Screenshot comparison (`src/integrations/playwright.ts` lines 139-234)

`compareScreenshots(base, current, threshold)`.  PNG decoding and file
I/O are abstracted: the two images arrive as decoded pixel buffers with
explicit dimensions.  The `pixelmatch` library call is an oracle
parameter `pm` returning the count of differing pixels.  The dimension
check, the similarity formula and the pass rule are modelled verbatim
from the source (lines 177-203). -/

/-- A decoded PNG: dimensions plus an abstract pixel buffer. -/
structure PNGImage where
  width : Nat
  height : Nat
  data : List Rat
  deriving Repr, DecidableEq

/-- `ScreenshotComparison` of the source, with the three path fields
abstracted away. -/
structure ScreenshotComparison where
  similarity : Rat
  pixelDifference : Nat
  passed : Bool
  deriving Repr, DecidableEq

/-- `compareScreenshots` on decoded images: dimension mismatch fails;
otherwise `pixelDifference` comes from the pixelmatch oracle `pm`,
`similarity = (totalPixels - pixelDifference) / totalPixels * 100` and
`passed = (similarity >= 100 - threshold * 100)`. -/
def compareScreenshots (pm : PNGImage → PNGImage → Rat → Nat)
    (baseImage currentImage : PNGImage) (threshold : Rat) :
    ToolResult ScreenshotComparison :=
  if baseImage.width ≠ currentImage.width ∨ baseImage.height ≠ currentImage.height then
    .failure "Images have different dimensions"
  else
    let pixelDifference := pm baseImage currentImage threshold
    let totalPixels := baseImage.width * baseImage.height
    let similarity : Rat := ((totalPixels : Rat) - (pixelDifference : Rat)) / (totalPixels : Rat) * 100
    let passed : Bool := decide (100 - threshold * 100 ≤ similarity)
    .success { similarity := similarity, pixelDifference := pixelDifference, passed := passed }

/-- C4: for every pair of same-dimension (nonempty) images and every
threshold `t ∈ [0,1]`, the comparison succeeds and its result satisfies
`similarity = (totalPixels - differingPixels) / totalPixels * 100` and
`passed = true` exactly when `similarity ≥ 100 - t * 100`, so the
whole-image pass bar tightens as the per-pixel threshold tightens. -/
theorem compareScreenshots_formula (pm : PNGImage → PNGImage → Rat → Nat)
    (baseImage currentImage : PNGImage) (t : Rat)
    (hw : baseImage.width = currentImage.width)
    (hh : baseImage.height = currentImage.height)
    (hwpos : 0 < baseImage.width) (hhpos : 0 < baseImage.height)
    (ht0 : 0 ≤ t) (ht1 : t ≤ 1) :
    ∃ c : ScreenshotComparison,
      compareScreenshots pm baseImage currentImage t = .success c ∧
      c.pixelDifference = pm baseImage currentImage t ∧
      c.similarity =
        (((baseImage.width * baseImage.height : Nat) : Rat) - (c.pixelDifference : Rat)) /
          ((baseImage.width * baseImage.height : Nat) : Rat) * 100 ∧
      (c.passed = true ↔ 100 - t * 100 ≤ c.similarity) := by
  have hne : ¬(baseImage.width ≠ currentImage.width ∨ baseImage.height ≠ currentImage.height) := by
    push_neg
    exact ⟨hw, hh⟩
  unfold compareScreenshots
  rw [if_neg hne]
  exact ⟨_, rfl, rfl, rfl, decide_eq_true_iff⟩

/-- The base image used by the C4 witness. -/
def witnessBaseImage : PNGImage := ⟨2, 1, [0, 0]⟩

/-- The candidate image used by the C4 witness. -/
def witnessCurrentImage : PNGImage := ⟨2, 1, [0, 1]⟩

/-- A pixelmatch oracle reporting exactly one differing pixel. -/
def witnessPixelmatch : PNGImage → PNGImage → Rat → Nat := fun _ _ _ => 1

/-- Witness for C4: two 2×1 images, pixelmatch reporting one differing
pixel, threshold 1/10: the comparison succeeds and the formula holds. -/
theorem compareScreenshots_formula_witness :
    ∃ c : ScreenshotComparison,
      compareScreenshots witnessPixelmatch witnessBaseImage witnessCurrentImage (1/10) =
        .success c ∧
      c.pixelDifference = witnessPixelmatch witnessBaseImage witnessCurrentImage (1/10) ∧
      c.similarity =
        (((witnessBaseImage.width * witnessBaseImage.height : Nat) : Rat) -
            (c.pixelDifference : Rat)) /
          ((witnessBaseImage.width * witnessBaseImage.height : Nat) : Rat) * 100 ∧
      (c.passed = true ↔ 100 - (1/10) * 100 ≤ c.similarity) :=
  compareScreenshots_formula witnessPixelmatch witnessBaseImage witnessCurrentImage (1/10)
    rfl rfl (by decide) (by decide) (by norm_num) (by norm_num)

/-! ## C9 — Visual test baseline bootstrap (`src/integrations/playwright.ts` lines 236-321)

`runVisualTest(testName, url, selector, baselineDir)`.  The file system
and the screenshot capture are abstracted into an environment record:
the outcome of `captureScreenshot`, whether the baseline file exists,
the outcome of `compareScreenshots` were it run, and the measured
duration.  The trace records which file-system effects were performed
(copying the candidate into the baseline slot; running a comparison). -/

/-- `TestResult` of the source (`src/types/index.ts`): name, pass flag,
optional error, duration, optional screenshot comparison. -/
structure TestResult where
  name : String
  passed : Bool
  error : Option String
  duration : Nat
  screenshots : Option ScreenshotComparison
  deriving Repr, DecidableEq

/-- Environment for one `runVisualTest` call: outcomes of the external
effects it performs. -/
structure VisualTestEnv where
  screenshotResult : ToolResult Unit
  baselineExists : Bool
  comparisonResult : ToolResult ScreenshotComparison
  durationMs : Nat
  deriving Repr, DecidableEq

/-- Which observable file-system effects `runVisualTest` performed. -/
structure VisualTestTrace where
  copiedToBaseline : Bool
  comparisonPerformed : Bool
  deriving Repr, DecidableEq

/-- `runVisualTest`: a failed capture is returned as-is; with an existing
baseline the comparison decides `passed` (a failed comparison records the
error and fails the test); with no baseline the candidate is copied into
the baseline slot, no comparison runs, and `passed` keeps its initial
`true` value. -/
def runVisualTest (env : VisualTestEnv) (testName : String) :
    ToolResult TestResult × VisualTestTrace :=
  match env.screenshotResult with
  | .failure e => (.failure e, ⟨false, false⟩)
  | .success _ =>
    if env.baselineExists then
      match env.comparisonResult with
      | .success comparison =>
          (.success ⟨testName, comparison.passed, none, env.durationMs, some comparison⟩,
            ⟨false, true⟩)
      | .failure e =>
          (.success ⟨testName, false, some e, env.durationMs, none⟩, ⟨false, true⟩)
    else
      (.success ⟨testName, true, none, env.durationMs, none⟩, ⟨true, false⟩)

/-- C9: when no baseline image exists and the capture succeeds, the
candidate is copied into the baseline slot, no comparison is performed,
and the test result reports `passed = true` with no error and no
comparison attached — passed-by-default on first run. -/
theorem runVisualTest_no_baseline_passes (env : VisualTestEnv) (testName : String)
    (hshot : env.screenshotResult = .success ())
    (hbase : env.baselineExists = false) :
    runVisualTest env testName =
      (.success ⟨testName, true, none, env.durationMs, none⟩, ⟨true, false⟩) := by
  unfold runVisualTest
  rw [hshot, hbase]
  simp

/-- Witness for C9 at a concrete environment with no baseline. -/
theorem runVisualTest_no_baseline_passes_witness :
    runVisualTest ⟨.success (), false, .failure "unused", 42⟩ "HeroButton-visual-test" =
      (.success ⟨"HeroButton-visual-test", true, none,
          (⟨.success (), false, .failure "unused", 42⟩ : VisualTestEnv).durationMs, none⟩,
        ⟨true, false⟩) :=
  runVisualTest_no_baseline_passes ⟨.success (), false, .failure "unused", 42⟩
    "HeroButton-visual-test" rfl rfl

/-! ## C10 — Responsive slot aggregation (`src/services/workflow.ts` lines 160-196)

`executeVisualTestingWorkflow` aggregates the four settled operations
into `testResults`.  The three pushes of the source (lines 163-194) are
modelled verbatim; the figma-images slot contributes no test entry. -/

/-- Payload of `testResponsiveDesign`: one captured screenshot path per
viewport. -/
structure ResponsiveData where
  screenshots : List String
  deriving Repr, DecidableEq

/-- Payload of `validateAccessibility`. -/
structure AccessibilityData where
  passed : Bool
  issues : List String
  deriving Repr, DecidableEq

/-- Entries the visual-regression slot pushes onto `testResults`. -/
def visualSlotEntries (v : Settled (ToolResult TestResult)) : List TestResult :=
  match v with
  | .fulfilled (.success tr) => [tr]
  | _ => []

/-- Entries the responsive-design slot pushes onto `testResults`
(source lines 168-178). -/
def responsiveSlotEntries (r : Settled (ToolResult ResponsiveData)) : List TestResult :=
  match r with
  | .fulfilled (.success _) => [⟨"responsive-design-test", true, none, 0, none⟩]
  | _ => []

/-- Entries the accessibility slot pushes onto `testResults`
(source lines 180-194). -/
def accessibilitySlotEntries (a : Settled (ToolResult AccessibilityData)) : List TestResult :=
  match a with
  | .fulfilled (.success ad) =>
      [⟨"accessibility-test", ad.passed,
          if ad.issues.length > 0 then some (String.intercalate ", " ad.issues) else none,
          0, none⟩]
  | _ => []

/-- The `testResults` array built by `executeVisualTestingWorkflow`:
three conditional pushes in source order. -/
def visualTestingTestResults (v : Settled (ToolResult TestResult))
    (r : Settled (ToolResult ResponsiveData))
    (a : Settled (ToolResult AccessibilityData)) : List TestResult :=
  (match v with
    | .fulfilled (.success tr) => [tr]
    | _ => []) ++
  (match r with
    | .fulfilled (.success _) => [⟨"responsive-design-test", true, none, 0, none⟩]
    | _ => []) ++
  (match a with
    | .fulfilled (.success ad) =>
        [⟨"accessibility-test", ad.passed,
            if ad.issues.length > 0 then some (String.intercalate ", " ad.issues) else none,
            0, none⟩]
    | _ => [])

/-- C10: whenever the responsive-layout capture resolves successfully,
the aggregated `testResults` contain the entry named
`responsive-design-test` with `passed = true`, unconditionally in the
captured data; when it does not resolve successfully the responsive slot
contributes no entry at all.  Hence the responsive test can never
contribute a failed entry to the test summary. -/
theorem responsive_entry_always_passed (v : Settled (ToolResult TestResult))
    (r : Settled (ToolResult ResponsiveData))
    (a : Settled (ToolResult AccessibilityData)) :
    (∀ d : ResponsiveData, r = .fulfilled (.success d) →
      visualTestingTestResults v r a =
        visualSlotEntries v ++
          ⟨"responsive-design-test", true, none, 0, none⟩ :: accessibilitySlotEntries a) ∧
      ((∀ d : ResponsiveData, r ≠ .fulfilled (.success d)) →
        visualTestingTestResults v r a =
          visualSlotEntries v ++ accessibilitySlotEntries a) ∧
      (∀ e ∈ responsiveSlotEntries r, e.passed = true) := by
  refine ⟨?_, ?_, ?_⟩
  · intro d hr
    subst hr
    simp [visualTestingTestResults, visualSlotEntries, accessibilitySlotEntries]
  · intro hr
    have hempty : (match r with
        | .fulfilled (.success _) =>
            [(⟨"responsive-design-test", true, none, 0, none⟩ : TestResult)]
        | _ => []) = [] := by
      match r with
      | .fulfilled (.success d) => exact absurd rfl (hr d)
      | .fulfilled (.failure e) => rfl
      | .rejected reason => rfl
    unfold visualTestingTestResults visualSlotEntries accessibilitySlotEntries
    rw [hempty]
    simp
  · intro e he
    unfold responsiveSlotEntries at he
    match r with
    | .fulfilled (.success d) =>
        simp at he
        rw [he]
    | .fulfilled (.failure msg) => simp at he
    | .rejected reason => simp at he

/-- Witness for C10: concrete inputs where the responsive capture
succeeded; the aggregate contains the always-passed entry. -/
theorem responsive_entry_always_passed_witness :
    visualTestingTestResults (.rejected "visual crashed")
        (.fulfilled (.success ⟨["responsive-mobile.png"]⟩))
        (.fulfilled (.success ⟨false, ["Image 1 is missing alt text"]⟩)) =
      visualSlotEntries (.rejected "visual crashed") ++
        ⟨"responsive-design-test", true, none, 0, none⟩ ::
          accessibilitySlotEntries (.fulfilled (.success ⟨false, ["Image 1 is missing alt text"]⟩)) :=
  (responsive_entry_always_passed (.rejected "visual crashed")
      (.fulfilled (.success ⟨["responsive-mobile.png"]⟩))
      (.fulfilled (.success ⟨false, ["Image 1 is missing alt text"]⟩))).1
    ⟨["responsive-mobile.png"]⟩ rfl

/-! ## C5 — Generate-and-commit workflow (`src/services/workflow.ts` lines 36-124)

`executeDesignToCodeWorkflow` issues `getFrame`, `analyzeDesignTokens`
and `createBranch` concurrently via `Promise.allSettled` and then checks
the three settled results in order (frame, tokens, branch), returning
`handleError` for the first failed one.  Component generation and file
saving are abstracted as an `Except` oracle (a thrown exception is
caught by the surrounding `try`), and `createCommit` as an oracle from
the saved files to a `ToolResult`. -/

/-- A fetched Figma frame, reduced to what the workflow reads. -/
structure FrameData where
  name : String
  width : Rat
  height : Rat
  deriving Repr, DecidableEq

/-- The extracted design-token aggregate, abstract here. -/
structure TokensData where
  colors : List String
  fonts : List String
  deriving Repr, DecidableEq

/-- Result payload of `createBranch`. -/
structure BranchData where
  branchName : String
  sha : String
  deriving Repr, DecidableEq

/-- Result payload of `createCommit`. -/
structure CommitData where
  commitSha : String
  message : String
  deriving Repr, DecidableEq

/-- Result payload of the whole design-to-code workflow (duration
omitted). -/
structure WorkflowData where
  frame : FrameData
  designTokens : TokensData
  branch : String
  commitSha : String
  deriving Repr, DecidableEq

/-- `handleError(message, result)` of the source (lines 269-280): a
rejected slot surfaces its rejection reason, a fulfilled-but-failed slot
its error string. -/
def handleError {α β : Type} (message : String) (result : Settled (ToolResult α)) :
    ToolResult β :=
  .failure (message ++ ": " ++
    (match result with
      | .rejected reason => reason
      | .fulfilled (.failure e) => e
      | .fulfilled (.success _) => "Unknown error"))

/-- The payload of a settled adapter call, present exactly when the
promise fulfilled with a successful `ToolResult`. -/
def settledData {α : Type} : Settled (ToolResult α) → Option α
  | .fulfilled (.success d) => some d
  | _ => none

/-- `executeDesignToCodeWorkflow`, as a function of the three settled
initial operations, the file-saving oracle (`Except.error` models an
exception caught by the outer `try`) and the `createCommit` oracle.
The second component records whether `createCommit` was invoked. -/
def executeDesignToCodeWorkflow
    (frameResult : Settled (ToolResult FrameData))
    (tokensResult : Settled (ToolResult TokensData))
    (branchResult : Settled (ToolResult BranchData))
    (saveResult : Except String (List (String × String)))
    (commitOracle : List (String × String) → ToolResult CommitData)
    (githubBranch : String) :
    ToolResult WorkflowData × Bool :=
  match settledData frameResult with
  | none => (handleError "Failed to fetch Figma frame" frameResult, false)
  | some frame =>
    match settledData tokensResult with
    | none => (handleError "Failed to analyze design tokens" tokensResult, false)
    | some designTokens =>
      match settledData branchResult with
      | none => (handleError "Failed to create GitHub branch" branchResult, false)
      | some _ =>
        match saveResult with
        | .error e => (.failure e, false)
        | .ok files =>
          match commitOracle files with
          | .failure e => (.failure e, true)
          | .success commitData =>
              (.success ⟨frame, designTokens, githubBranch, commitData.commitSha⟩, true)

/-- C5: if any of the three concurrently issued initial operations
(fetch-frame, analyze-tokens, create-branch) fails — rejected or
fulfilled with a failure — the workflow returns that specific failure
(tagged with the slot that failed, first in frame/tokens/branch check
order), no commit is attempted and no artifact is returned; and a commit
is only ever attempted when all three succeeded. -/
theorem designToCode_abort_on_failure
    (frameResult : Settled (ToolResult FrameData))
    (tokensResult : Settled (ToolResult TokensData))
    (branchResult : Settled (ToolResult BranchData))
    (saveResult : Except String (List (String × String)))
    (commitOracle : List (String × String) → ToolResult CommitData)
    (githubBranch : String) :
    (settledData frameResult = none →
      executeDesignToCodeWorkflow frameResult tokensResult branchResult saveResult
          commitOracle githubBranch =
        (handleError "Failed to fetch Figma frame" frameResult, false)) ∧
    (settledData frameResult ≠ none → settledData tokensResult = none →
      executeDesignToCodeWorkflow frameResult tokensResult branchResult saveResult
          commitOracle githubBranch =
        (handleError "Failed to analyze design tokens" tokensResult, false)) ∧
    (settledData frameResult ≠ none → settledData tokensResult ≠ none →
      settledData branchResult = none →
      executeDesignToCodeWorkflow frameResult tokensResult branchResult saveResult
          commitOracle githubBranch =
        (handleError "Failed to create GitHub branch" branchResult, false)) ∧
    ((executeDesignToCodeWorkflow frameResult tokensResult branchResult saveResult
          commitOracle githubBranch).2 = true →
      settledData frameResult ≠ none ∧ settledData tokensResult ≠ none ∧
        settledData branchResult ≠ none) := by
  refine ⟨?_, ?_, ?_, ?_⟩
  · intro hf
    simp only [executeDesignToCodeWorkflow, hf]
  · intro hf ht
    obtain ⟨frame, hf'⟩ := Option.ne_none_iff_exists'.mp hf
    simp only [executeDesignToCodeWorkflow, hf', ht]
  · intro hf ht hb
    obtain ⟨frame, hf'⟩ := Option.ne_none_iff_exists'.mp hf
    obtain ⟨designTokens, ht'⟩ := Option.ne_none_iff_exists'.mp ht
    simp only [executeDesignToCodeWorkflow, hf', ht', hb]
  · intro hcommit
    refine ⟨?_, ?_, ?_⟩
    · intro hf
      simp only [executeDesignToCodeWorkflow, hf] at hcommit
      cases hcommit
    · intro ht
      cases hf : settledData frameResult with
      | none =>
          simp only [executeDesignToCodeWorkflow, hf] at hcommit
          cases hcommit
      | some frame =>
          simp only [executeDesignToCodeWorkflow, hf, ht] at hcommit
          cases hcommit
    · intro hb
      cases hf : settledData frameResult with
      | none =>
          simp only [executeDesignToCodeWorkflow, hf] at hcommit
          cases hcommit
      | some frame =>
          cases ht : settledData tokensResult with
          | none =>
              simp only [executeDesignToCodeWorkflow, hf, ht] at hcommit
              cases hcommit
          | some designTokens =>
              simp only [executeDesignToCodeWorkflow, hf, ht, hb] at hcommit
              cases hcommit

/-- Witness for C5: the branch-creation slot failed (branch already
exists) while frame and tokens succeeded; the workflow surfaces the
branch failure and attempts no commit. -/
theorem designToCode_abort_on_failure_witness :
    executeDesignToCodeWorkflow
        (.fulfilled (.success ⟨"Hero", 320, 80⟩))
        (.fulfilled (.success ⟨["#ffffff"], ["Inter"]⟩))
        (.fulfilled (.failure "Reference already exists"))
        (.ok [("src/components/Hero/Hero.tsx", "code")])
        (fun _ => .success ⟨"deadbeef", "feat"⟩) "feature/hero" =
      (handleError "Failed to create GitHub branch"
        ((.fulfilled (.failure "Reference already exists")) : Settled (ToolResult BranchData)),
        false) :=
  (designToCode_abort_on_failure
      (.fulfilled (.success ⟨"Hero", 320, 80⟩))
      (.fulfilled (.success ⟨["#ffffff"], ["Inter"]⟩))
      (.fulfilled (.failure "Reference already exists"))
      (.ok [("src/components/Hero/Hero.tsx", "code")])
      (fun _ => .success ⟨"deadbeef", "feat"⟩) "feature/hero").2.2.1
    (by decide) (by decide) rfl

/-! ## C1 — Commit creation is all-or-nothing (`src/integrations/github.ts` lines 59-139)

`GitHubIntegration.createCommit(branchName, files, message)` performs,
in order: `getRef`, `getCommit`, one `createBlob` per file,
`createTree`, `createCommit`, `updateRef`, inside a `try`/`catch` that
converts any thrown API error into a `ToolResult` failure.

The remote GitHub repository is modelled as an explicit object store
(`GitHubState`); shas are allocated from a counter, so a well-formed
state has every stored sha below the counter.  Each REST call may fail
(network error or missing resource); the network-failure schedule is an
oracle `faults : Nat → Bool` indexed by a running call counter.  The
base64 transport encoding of blob content is an invertible wire format
and is abstracted away (contents are stored as given).  `updateRef` is
the only primitive that writes `refs`, and `refUpdates` counts its
successful writes. -/

/-- One entry of a git tree object: a path bound to a blob sha. -/
structure TreeEntry where
  path : String
  sha : Nat
  deriving Repr, DecidableEq

/-- A git commit object: tree sha, parent shas, message. -/
structure CommitObj where
  treeSha : Nat
  parents : List Nat
  message : String
  deriving Repr, DecidableEq

/-- The remote repository state: refs (branch name → commit sha), the
blob/tree/commit object stores (sha-keyed), the sha allocator, and a
count of successful ref moves. -/
structure GitHubState where
  refs : List (String × Nat)
  blobs : List (Nat × String)
  trees : List (Nat × List TreeEntry)
  commits : List (Nat × CommitObj)
  nextSha : Nat
  refUpdates : Nat
  deriving Repr, DecidableEq

/-- Well-formed store: every stored sha (and every sha referenced by a
ref or by a commit's tree pointer) is below the allocator. -/
def WF (s : GitHubState) : Prop :=
  (∀ p ∈ s.refs, p.2 < s.nextSha) ∧
    (∀ p ∈ s.blobs, p.1 < s.nextSha) ∧
    (∀ p ∈ s.trees, p.1 < s.nextSha) ∧
    (∀ p ∈ s.commits, p.1 < s.nextSha ∧ p.2.treeSha < s.nextSha)

/-- ref → commit → tree chain over plain stores. -/
def headTree (refs : List (String × Nat)) (commits : List (Nat × CommitObj))
    (trees : List (Nat × List TreeEntry)) (branch : String) : Option (List TreeEntry) :=
  (alookup branch refs).bind fun sha =>
    (alookup sha commits).bind fun c => alookup c.treeSha trees

/-- The tree object reachable from a branch head: ref → commit → tree. -/
def headTreeEntries (s : GitHubState) (branch : String) : Option (List TreeEntry) :=
  headTree s.refs s.commits s.trees branch

theorem headTree_trees_append {refs : List (String × Nat)}
    {commits : List (Nat × CommitObj)} {trees ext : List (Nat × List TreeEntry)}
    (h : ∀ sha c, alookup sha commits = some c → ∀ p ∈ ext, p.1 ≠ c.treeSha) (b : String) :
    headTree refs commits (trees ++ ext) b = headTree refs commits trees b := by
  unfold headTree
  cases href : alookup b refs with
  | none => rfl
  | some sha =>
    cases hcom : alookup sha commits with
    | none => simp [hcom]
    | some c => simp [hcom, alookup_append_of_fresh _ (h sha c hcom)]

theorem headTree_commits_append {refs : List (String × Nat)}
    {commits ext : List (Nat × CommitObj)} {trees : List (Nat × List TreeEntry)}
    (h : ∀ b sha, alookup b refs = some sha → ∀ p ∈ ext, p.1 ≠ sha) (b : String) :
    headTree refs (commits ++ ext) trees b = headTree refs commits trees b := by
  unfold headTree
  cases href : alookup b refs with
  | none => rfl
  | some sha =>
    simp only [Option.some_bind]
    rw [alookup_append_of_fresh _ (h b sha href)]

/-- Observers of C1 preserved by every step but a successful
`updateRef`: the ref table, the ref-move count, and every branch head's
reachable tree. -/
def RefsObs (s s' : GitHubState) : Prop :=
  s'.refs = s.refs ∧ s'.refUpdates = s.refUpdates ∧
    ∀ b, headTreeEntries s' b = headTreeEntries s b

theorem refsObs_refl (s : GitHubState) : RefsObs s s :=
  ⟨rfl, rfl, fun _ => rfl⟩

theorem refsObs_trans {s₁ s₂ s₃ : GitHubState} (h₁ : RefsObs s₁ s₂) (h₂ : RefsObs s₂ s₃) :
    RefsObs s₁ s₃ :=
  ⟨h₂.1.trans h₁.1, h₂.2.1.trans h₁.2.1, fun b => (h₂.2.2 b).trans (h₁.2.2 b)⟩

theorem alookup_mem {κ α : Type} [DecidableEq κ] {k : κ} {l : List (κ × α)} {v : α}
    (h : alookup k l = some v) : ((k, v) : κ × α) ∈ l := by
  induction l with
  | nil => cases h
  | cons p rest ih =>
    rcases p with ⟨a, w⟩
    rcases eq_or_ne a k with hk | hk
    · subst hk
      simp [alookup] at h
      subst h
      exact List.mem_cons_self _ _
    · simp [alookup, hk] at h
      exact List.mem_cons_of_mem _ (ih h)

theorem alookup_eq_none_of_fresh {κ α : Type} [DecidableEq κ] {k : κ} {l : List (κ × α)}
    (h : ∀ p ∈ l, p.1 ≠ k) : alookup k l = none := by
  induction l with
  | nil => rfl
  | cons p rest ih =>
    obtain ⟨k', v'⟩ := p
    have hk : k' ≠ k := h (k', v') (List.mem_cons_self _ _)
    simp only [alookup, if_neg hk]
    exact ih (fun q hq => h q (List.mem_cons_of_mem _ hq))

/-- `octokit.rest.git.getRef`: read-only; fails on a scheduled network
fault or a missing branch. -/
def ghGetRef (faults : Nat → Bool) (branch : String) (s : GitHubState) (k : Nat) :
    Except String Nat × GitHubState × Nat :=
  if faults k then (.error "Network error", s, k + 1)
  else
    match alookup branch s.refs with
    | some sha => (.ok sha, s, k + 1)
    | none => (.error "Reference not found", s, k + 1)

/-- `octokit.rest.git.getCommit`: read-only. -/
def ghGetCommit (faults : Nat → Bool) (sha : Nat) (s : GitHubState) (k : Nat) :
    Except String CommitObj × GitHubState × Nat :=
  if faults k then (.error "Network error", s, k + 1)
  else
    match alookup sha s.commits with
    | some c => (.ok c, s, k + 1)
    | none => (.error "Commit not found", s, k + 1)

/-- `octokit.rest.git.createBlob`: allocates a fresh sha and stores the
content; touches no ref, tree or commit. -/
def ghCreateBlob (faults : Nat → Bool) (content : String) (s : GitHubState) (k : Nat) :
    Except String Nat × GitHubState × Nat :=
  if faults k then (.error "Network error", s, k + 1)
  else
    (.ok s.nextSha,
      { s with blobs := s.blobs ++ [(s.nextSha, content)], nextSha := s.nextSha + 1 },
      k + 1)

/-- GitHub `createTree` base-tree semantics: the new entries override
same-path entries of the base tree and are all present in the result. -/
def mergeTreeEntries (base new : List TreeEntry) : List TreeEntry :=
  base.filter (fun e => !(new.any (fun n => n.path == e.path))) ++ new

/-- `octokit.rest.git.createTree` with a `base_tree`: allocates a fresh
sha for the merged tree. -/
def ghCreateTree (faults : Nat → Bool) (baseTreeSha : Nat) (entries : List TreeEntry)
    (s : GitHubState) (k : Nat) : Except String Nat × GitHubState × Nat :=
  if faults k then (.error "Network error", s, k + 1)
  else
    match alookup baseTreeSha s.trees with
    | none => (.error "Base tree not found", s, k + 1)
    | some baseEntries =>
        (.ok s.nextSha,
          { s with
              trees := s.trees ++ [(s.nextSha, mergeTreeEntries baseEntries entries)],
              nextSha := s.nextSha + 1 },
          k + 1)

/-- `octokit.rest.git.createCommit`: allocates a fresh sha for the new
commit object. -/
def ghCreateCommitObj (faults : Nat → Bool) (treeSha : Nat) (parents : List Nat)
    (message : String) (s : GitHubState) (k : Nat) :
    Except String Nat × GitHubState × Nat :=
  if faults k then (.error "Network error", s, k + 1)
  else
    (.ok s.nextSha,
      { s with
          commits := s.commits ++ [(s.nextSha, ⟨treeSha, parents, message⟩)],
          nextSha := s.nextSha + 1 },
      k + 1)

/-- `octokit.rest.git.updateRef`: the only primitive that moves a ref;
counts its successful writes in `refUpdates`. -/
def ghUpdateRef (faults : Nat → Bool) (branch : String) (sha : Nat)
    (s : GitHubState) (k : Nat) : Except String Unit × GitHubState × Nat :=
  if faults k then (.error "Network error", s, k + 1)
  else
    match alookup branch s.refs with
    | none => (.error "Reference not found", s, k + 1)
    | some _ =>
        (.ok (),
          { s with refs := aset branch sha s.refs, refUpdates := s.refUpdates + 1 },
          k + 1)

/-- The `Promise.all(files.map(createBlob))` phase, sequentialised:
returns the (path, blob sha) pairs in file order. -/
def createBlobs (faults : Nat → Bool) :
    List (String × String) → GitHubState → Nat →
      Except String (List (String × Nat)) × GitHubState × Nat
  | [], s, k => (.ok [], s, k)
  | (path, content) :: rest, s, k =>
    match ghCreateBlob faults content s k with
    | (.error e, s', k') => (.error e, s', k')
    | (.ok sha, s', k') =>
      match createBlobs faults rest s' k' with
      | (.error e, s'', k'') => (.error e, s'', k'')
      | (.ok pairs, s'', k'') => (.ok ((path, sha) :: pairs), s'', k'')

/-- Result payload of `createCommit` (`{ commitSha, message }`). -/
structure GitCommitResult where
  commitSha : Nat
  message : String
  deriving Repr, DecidableEq

/-- `GitHubIntegration.createCommit`: getRef, getCommit, blobs, tree,
commit, updateRef in source order; the surrounding `try`/`catch` turns
the first error into a `ToolResult.failure` and skips every later step. -/
def createCommit (faults : Nat → Bool) (branchName : String)
    (files : List (String × String)) (message : String) (s : GitHubState) (k : Nat) :
    ToolResult GitCommitResult × GitHubState × Nat :=
  match ghGetRef faults branchName s k with
  | (.error e, s₁, k₁) => (.failure e, s₁, k₁)
  | (.ok headSha, s₁, k₁) =>
    match ghGetCommit faults headSha s₁ k₁ with
    | (.error e, s₂, k₂) => (.failure e, s₂, k₂)
    | (.ok headCommit, s₂, k₂) =>
      match createBlobs faults files s₂ k₂ with
      | (.error e, s₃, k₃) => (.failure e, s₃, k₃)
      | (.ok blobs, s₃, k₃) =>
        match ghCreateTree faults headCommit.treeSha
            (blobs.map (fun b => ⟨b.1, b.2⟩)) s₃ k₃ with
        | (.error e, s₄, k₄) => (.failure e, s₄, k₄)
        | (.ok treeSha, s₄, k₄) =>
          match ghCreateCommitObj faults treeSha [headSha] message s₄ k₄ with
          | (.error e, s₅, k₅) => (.failure e, s₅, k₅)
          | (.ok newSha, s₅, k₅) =>
            match ghUpdateRef faults branchName newSha s₅ k₅ with
            | (.error e, s₆, k₆) => (.failure e, s₆, k₆)
            | (.ok _, s₆, k₆) => (.success ⟨newSha, message⟩, s₆, k₆)

theorem ghGetRef_state (f : Nat → Bool) (b : String) (s : GitHubState) (k : Nat) :
    (ghGetRef f b s k).2.1 = s := by
  unfold ghGetRef
  split
  · rfl
  · split <;> rfl

theorem ghGetRef_ok (f : Nat → Bool) (b : String) (s : GitHubState) (k : Nat)
    (sha : Nat) (h : (ghGetRef f b s k).1 = .ok sha) : alookup b s.refs = some sha := by
  unfold ghGetRef at h
  split at h
  · cases h
  · split at h
    · next sha' hlook =>
        cases h
        exact hlook
    · cases h

theorem ghGetCommit_state (f : Nat → Bool) (sha : Nat) (s : GitHubState) (k : Nat) :
    (ghGetCommit f sha s k).2.1 = s := by
  unfold ghGetCommit
  split
  · rfl
  · split <;> rfl

theorem ghGetCommit_ok (f : Nat → Bool) (sha : Nat) (s : GitHubState) (k : Nat)
    (c : CommitObj) (h : (ghGetCommit f sha s k).1 = .ok c) :
    alookup sha s.commits = some c := by
  unfold ghGetCommit at h
  split at h
  · cases h
  · split at h
    · next c' hlook =>
        cases h
        exact hlook
    · cases h

/-- Facts preserved by every primitive in either outcome, combined with
blob-binding persistence: well-formedness, allocator monotonicity, the
C1 observers, and existing blob bindings. -/
def StepPres (s s' : GitHubState) : Prop :=
  (WF s → WF s') ∧ s.nextSha ≤ s'.nextSha ∧ (WF s → RefsObs s s') ∧
    (∀ x v, alookup x s.blobs = some v → alookup x s'.blobs = some v)

theorem stepPres_refl (s : GitHubState) : StepPres s s :=
  ⟨id, le_refl _, fun _ => refsObs_refl s, fun _ _ h => h⟩

theorem stepPres_trans {s₁ s₂ s₃ : GitHubState} (h₁ : StepPres s₁ s₂)
    (h₂ : StepPres s₂ s₃) : StepPres s₁ s₃ := by
  refine ⟨fun hw => h₂.1 (h₁.1 hw), le_trans h₁.2.1 h₂.2.1, fun hw => ?_,
    fun x v h => h₂.2.2.2 x v (h₁.2.2.2 x v h)⟩
  exact refsObs_trans (h₁.2.2.1 hw) (h₂.2.2.1 (h₁.1 hw))

theorem ghCreateBlob_pres (f : Nat → Bool) (content : String) (s : GitHubState) (k : Nat) :
    StepPres s (ghCreateBlob f content s k).2.1 := by
  unfold ghCreateBlob
  split
  · exact stepPres_refl s
  · refine ⟨fun hw => ?_, Nat.le_succ _, fun hw => ⟨rfl, rfl, fun b => rfl⟩,
      fun x v h => alookup_append_of_some h _⟩
    obtain ⟨hr, hb, ht, hc⟩ := hw
    refine ⟨fun p hp => Nat.lt_succ_of_lt (hr p hp), fun p hp => ?_,
      fun p hp => Nat.lt_succ_of_lt (ht p hp),
      fun p hp => ⟨Nat.lt_succ_of_lt ((hc p hp).1), Nat.lt_succ_of_lt ((hc p hp).2)⟩⟩
    rcases List.mem_append.mp hp with hp' | hp'
    · exact Nat.lt_succ_of_lt (hb p hp')
    · simp only [List.mem_singleton] at hp'
      subst hp'
      exact Nat.lt_succ_self _

theorem ghCreateTree_pres (f : Nat → Bool) (baseTreeSha : Nat) (entries : List TreeEntry)
    (s : GitHubState) (k : Nat) :
    StepPres s (ghCreateTree f baseTreeSha entries s k).2.1 := by
  unfold ghCreateTree
  split
  · exact stepPres_refl s
  · split
    · exact stepPres_refl s
    · next baseEntries hbase =>
        refine ⟨fun hw => ?_, Nat.le_succ _, fun hw => ⟨rfl, rfl, fun b => ?_⟩,
          fun x v h => h⟩
        · obtain ⟨hr, hb, ht, hc⟩ := hw
          refine ⟨fun p hp => Nat.lt_succ_of_lt (hr p hp),
            fun p hp => Nat.lt_succ_of_lt (hb p hp), fun p hp => ?_,
            fun p hp => ⟨Nat.lt_succ_of_lt ((hc p hp).1), Nat.lt_succ_of_lt ((hc p hp).2)⟩⟩
          rcases List.mem_append.mp hp with hp' | hp'
          · exact Nat.lt_succ_of_lt (ht p hp')
          · simp only [List.mem_singleton] at hp'
            subst hp'
            exact Nat.lt_succ_self _
        · show headTree s.refs s.commits
              (s.trees ++ [(s.nextSha, mergeTreeEntries baseEntries entries)]) b =
            headTree s.refs s.commits s.trees b
          refine headTree_trees_append (fun sha c hcom p hp => ?_) b
          have hlt : c.treeSha < s.nextSha := (hw.2.2.2 (sha, c) (alookup_mem hcom)).2
          simp only [List.mem_singleton] at hp
          subst hp
          exact Nat.ne_of_gt hlt

theorem ghCreateCommitObj_pres (f : Nat → Bool) (treeSha : Nat) (parents : List Nat)
    (message : String) (s : GitHubState) (k : Nat) (htree : treeSha < s.nextSha) :
    StepPres s (ghCreateCommitObj f treeSha parents message s k).2.1 := by
  unfold ghCreateCommitObj
  split
  · exact stepPres_refl s
  · refine ⟨fun hw => ?_, Nat.le_succ _, fun hw => ⟨rfl, rfl, fun b => ?_⟩, fun x v h => h⟩
    · obtain ⟨hr, hb, ht, hc⟩ := hw
      refine ⟨fun p hp => Nat.lt_succ_of_lt (hr p hp),
        fun p hp => Nat.lt_succ_of_lt (hb p hp),
        fun p hp => Nat.lt_succ_of_lt (ht p hp), fun p hp => ?_⟩
      rcases List.mem_append.mp hp with hp' | hp'
      · exact ⟨Nat.lt_succ_of_lt ((hc p hp').1), Nat.lt_succ_of_lt ((hc p hp').2)⟩
      · simp only [List.mem_singleton] at hp'
        subst hp'
        exact ⟨Nat.lt_succ_self _, Nat.lt_succ_of_lt htree⟩
    · show headTree s.refs
          (s.commits ++ [(s.nextSha, (⟨treeSha, parents, message⟩ : CommitObj))]) s.trees b =
        headTree s.refs s.commits s.trees b
      refine headTree_commits_append (fun b' sha href p hp => ?_) b
      have hlt : sha < s.nextSha := hw.1 (b', sha) (alookup_mem href)
      simp only [List.mem_singleton] at hp
      subst hp
      exact Nat.ne_of_gt hlt

theorem ghCreateBlob_ok (f : Nat → Bool) (content : String) (s : GitHubState) (k : Nat)
    (sha : Nat) (s' : GitHubState) (k' : Nat)
    (h : ghCreateBlob f content s k = (.ok sha, s', k')) :
    sha = s.nextSha ∧
      s' = { s with blobs := s.blobs ++ [(s.nextSha, content)], nextSha := s.nextSha + 1 } := by
  unfold ghCreateBlob at h
  split at h
  · simp at h
  · injection h with ha hbc
    injection hbc with hb hc
    injection ha with ha
    exact ⟨ha.symm, hb.symm⟩

theorem ghCreateTree_ok (f : Nat → Bool) (baseTreeSha : Nat) (entries : List TreeEntry)
    (s : GitHubState) (k : Nat) (treeSha : Nat) (s' : GitHubState) (k' : Nat)
    (h : ghCreateTree f baseTreeSha entries s k = (.ok treeSha, s', k')) :
    ∃ baseEntries, alookup baseTreeSha s.trees = some baseEntries ∧
      treeSha = s.nextSha ∧
      s' = { s with
          trees := s.trees ++ [(s.nextSha, mergeTreeEntries baseEntries entries)],
          nextSha := s.nextSha + 1 } := by
  unfold ghCreateTree at h
  split at h
  · simp at h
  · split at h
    · simp at h
    · next baseEntries hbase =>
        injection h with ha hbc
        injection hbc with hb hc
        injection ha with ha
        exact ⟨baseEntries, hbase, ha.symm, hb.symm⟩

theorem ghCreateCommitObj_ok (f : Nat → Bool) (treeSha : Nat) (parents : List Nat)
    (message : String) (s : GitHubState) (k : Nat) (cSha : Nat) (s' : GitHubState) (k' : Nat)
    (h : ghCreateCommitObj f treeSha parents message s k = (.ok cSha, s', k')) :
    cSha = s.nextSha ∧
      s' = { s with
          commits := s.commits ++ [(s.nextSha, ⟨treeSha, parents, message⟩)],
          nextSha := s.nextSha + 1 } := by
  unfold ghCreateCommitObj at h
  split at h
  · simp at h
  · injection h with ha hbc
    injection hbc with hb hc
    injection ha with ha
    exact ⟨ha.symm, hb.symm⟩

theorem ghUpdateRef_ok (f : Nat → Bool) (branch : String) (sha : Nat) (s : GitHubState)
    (k : Nat) (u : Unit) (s' : GitHubState) (k' : Nat)
    (h : ghUpdateRef f branch sha s k = (.ok u, s', k')) :
    s' = { s with refs := aset branch sha s.refs, refUpdates := s.refUpdates + 1 } := by
  unfold ghUpdateRef at h
  split at h
  · simp at h
  · split at h
    · simp at h
    · injection h with ha hbc
      injection hbc with hb hc
      exact hb.symm

theorem ghUpdateRef_err (f : Nat → Bool) (branch : String) (sha : Nat) (s : GitHubState)
    (k : Nat) (e : String) (s' : GitHubState) (k' : Nat)
    (h : ghUpdateRef f branch sha s k = (.error e, s', k')) : s' = s := by
  unfold ghUpdateRef at h
  split at h
  · injection h with ha hbc
    injection hbc with hb hc
    exact hb.symm
  · split at h
    · injection h with ha hbc
      injection hbc with hb hc
      exact hb.symm
    · simp at h

theorem createBlobs_pres (f : Nat → Bool) :
    ∀ (files : List (String × String)) (s : GitHubState) (k : Nat),
      StepPres s (createBlobs f files s k).2.1 := by
  intro files
  induction files with
  | nil => intro s k; exact stepPres_refl s
  | cons file rest ih =>
    intro s k
    obtain ⟨path, content⟩ := file
    unfold createBlobs
    split
    · next e s' k' hblob =>
        have hpres := ghCreateBlob_pres f content s k
        rw [hblob] at hpres
        exact hpres
    · next sha s' k' hblob =>
        have hp : StepPres s s' := by
          have hpres := ghCreateBlob_pres f content s k
          rw [hblob] at hpres
          exact hpres
        split
        · next e s'' k'' hrest =>
            have hp2 := ih s' k'
            rw [hrest] at hp2
            exact stepPres_trans hp hp2
        · next pairs s'' k'' hrest =>
            have hp2 := ih s' k'
            rw [hrest] at hp2
            exact stepPres_trans hp hp2

theorem createBlobs_ok (f : Nat → Bool) :
    ∀ (files : List (String × String)) (s : GitHubState) (k : Nat)
      (pairs : List (String × Nat)) (s' : GitHubState) (k' : Nat),
      WF s → createBlobs f files s k = (.ok pairs, s', k') →
      ∀ fl ∈ files, ∃ sha, (fl.1, sha) ∈ pairs ∧ alookup sha s'.blobs = some fl.2 := by
  intro files
  induction files with
  | nil => intro s k pairs s' k' hwf h fl hfl; cases hfl
  | cons file rest ih =>
    intro s k pairs s' k' hwf h fl hfl
    obtain ⟨path, content⟩ := file
    unfold createBlobs at h
    split at h
    · simp at h
    · next sha s₁ k₁ hblob =>
      split at h
      · simp at h
      · next pairs2 s₂ k₂ hrest =>
        injection h with ha hbc
        injection hbc with hb hc
        injection ha with ha
        subst hb
        obtain ⟨hsha, hs₁⟩ := ghCreateBlob_ok f content s k sha s₁ k₁ hblob
        have hmono : ∀ x v, alookup x s₁.blobs = some v → alookup x s₂.blobs = some v := by
          have hpres := createBlobs_pres f rest s₁ k₁
          rw [hrest] at hpres
          exact hpres.2.2.2
        rcases List.mem_cons.mp hfl with hfl' | hfl'
        · subst hfl'
          refine ⟨sha, ?_, ?_⟩
          · rw [← ha]
            exact List.mem_cons_self _ _
          · refine hmono sha content ?_
            subst hsha hs₁
            have hnone : alookup s.nextSha s.blobs = none := by
              refine alookup_eq_none_of_fresh ?_
              intro p hp
              exact Nat.ne_of_lt (hwf.2.1 p hp)
            rw [alookup_append, hnone]
            simp [alookup]
        · have hwf₁ : WF s₁ := by
            have hpres := ghCreateBlob_pres f content s k
            rw [hblob] at hpres
            exact hpres.1 hwf
          obtain ⟨sha', hmem, hlook⟩ := ih s₁ k₁ pairs2 s₂ k₂ hwf₁ hrest fl hfl'
          refine ⟨sha', ?_, hlook⟩
          rw [← ha]
          exact List.mem_cons_of_mem _ hmem

theorem createCommit_failure_frame (f : Nat → Bool) (branchName : String)
    (files : List (String × String)) (message : String) (s : GitHubState) (k : Nat)
    (hwf : WF s) (e : String) (s' : GitHubState) (k' : Nat)
    (h : createCommit f branchName files message s k = (.failure e, s', k')) :
    s'.refs = s.refs ∧ s'.refUpdates = s.refUpdates ∧
      ∀ b, headTreeEntries s' b = headTreeEntries s b := by
  unfold createCommit at h
  split at h
  · next e₁ s₁ k₁ h₁ =>
      injection h with ha hbc
      injection hbc with hb hc
      subst hb
      have hs₁ : s₁ = s := by
        have hst := ghGetRef_state f branchName s k
        rw [h₁] at hst
        exact hst
      rw [hs₁]
      exact ⟨rfl, rfl, fun b => rfl⟩
  · next headSha s₁ k₁ h₁ =>
      have hs₁ : s₁ = s := by
        have hst := ghGetRef_state f branchName s k
        rw [h₁] at hst
        exact hst
      rw [hs₁] at h
      split at h
      · next e₂ s₂ k₂ h₂ =>
          injection h with ha hbc
          injection hbc with hb hc
          subst hb
          have hs₂ : s₂ = s := by
            have hst := ghGetCommit_state f headSha s k₁
            rw [h₂] at hst
            exact hst
          rw [hs₂]
          exact ⟨rfl, rfl, fun b => rfl⟩
      · next headCommit s₂ k₂ h₂ =>
          have hs₂ : s₂ = s := by
            have hst := ghGetCommit_state f headSha s k₁
            rw [h₂] at hst
            exact hst
          rw [hs₂] at h
          split at h
          · next e₃ s₃ k₃ h₃ =>
              injection h with ha hbc
              injection hbc with hb hc
              subst hb
              have hp3 : StepPres s s₃ := by
                have hp := createBlobs_pres f files s k₂
                rw [h₃] at hp
                exact hp
              exact hp3.2.2.1 hwf
          · next blobs s₃ k₃ h₃ =>
              have hp3 : StepPres s s₃ := by
                have hp := createBlobs_pres f files s k₂
                rw [h₃] at hp
                exact hp
              have hwf₃ : WF s₃ := hp3.1 hwf
              split at h
              · next e₄ s₄ k₄ h₄ =>
                  injection h with ha hbc
                  injection hbc with hb hc
                  subst hb
                  have hp4 : StepPres s₃ s₄ := by
                    have hp := ghCreateTree_pres f headCommit.treeSha
                      (blobs.map (fun b => ⟨b.1, b.2⟩)) s₃ k₃
                    rw [h₄] at hp
                    exact hp
                  exact (stepPres_trans hp3 hp4).2.2.1 hwf
              · next treeSha s₄ k₄ h₄ =>
                  have hp4 : StepPres s₃ s₄ := by
                    have hp := ghCreateTree_pres f headCommit.treeSha
                      (blobs.map (fun b => ⟨b.1, b.2⟩)) s₃ k₃
                    rw [h₄] at hp
                    exact hp
                  obtain ⟨baseEntries, hbase, htSha, hs₄⟩ :=
                    ghCreateTree_ok f headCommit.treeSha (blobs.map (fun b => ⟨b.1, b.2⟩))
                      s₃ k₃ treeSha s₄ k₄ h₄
                  have htree : treeSha < s₄.nextSha := by
                    rw [htSha, hs₄]
                    exact Nat.lt_succ_self _
                  split at h
                  · next e₅ s₅ k₅ h₅ =>
                      injection h with ha hbc
                      injection hbc with hb hc
                      subst hb
                      have hp5 : StepPres s₄ s₅ := by
                        have hp := ghCreateCommitObj_pres f treeSha [headSha] message
                          s₄ k₄ htree
                        rw [h₅] at hp
                        exact hp
                      exact (stepPres_trans (stepPres_trans hp3 hp4) hp5).2.2.1 hwf
                  · next newSha s₅ k₅ h₅ =>
                      have hp5 : StepPres s₄ s₅ := by
                        have hp := ghCreateCommitObj_pres f treeSha [headSha] message
                          s₄ k₄ htree
                        rw [h₅] at hp
                        exact hp
                      split at h
                      · next e₆ s₆ k₆ h₆ =>
                          injection h with ha hbc
                          injection hbc with hb hc
                          subst hb
                          have hs₆ : s₆ = s₅ :=
                            ghUpdateRef_err f branchName newSha s₅ k₅ e₆ s₆ k₆ h₆
                          subst hs₆
                          exact (stepPres_trans (stepPres_trans hp3 hp4) hp5).2.2.1 hwf
                      · next u s₆ k₆ h₆ => simp at h

theorem createCommit_success_frame (f : Nat → Bool) (branchName : String)
    (files : List (String × String)) (message : String) (s : GitHubState) (k : Nat)
    (hwf : WF s) (d : GitCommitResult) (s' : GitHubState) (k' : Nat)
    (h : createCommit f branchName files message s k = (.success d, s', k')) :
    s'.refs = aset branchName d.commitSha s.refs ∧
      s'.refUpdates = s.refUpdates + 1 ∧
      ∃ co entries, alookup d.commitSha s'.commits = some co ∧
        alookup co.treeSha s'.trees = some entries ∧
        ∀ fl ∈ files, ∃ en ∈ entries, en.path = fl.1 ∧
          alookup en.sha s'.blobs = some fl.2 := by
  unfold createCommit at h
  split at h
  · simp at h
  · next headSha s₁ k₁ h₁ =>
      have hs₁ : s₁ = s := by
        have hst := ghGetRef_state f branchName s k
        rw [h₁] at hst
        exact hst
      rw [hs₁] at h
      split at h
      · simp at h
      · next headCommit s₂ k₂ h₂ =>
          have hs₂ : s₂ = s := by
            have hst := ghGetCommit_state f headSha s k₁
            rw [h₂] at hst
            exact hst
          rw [hs₂] at h
          split at h
          · simp at h
          · next blobs s₃ k₃ h₃ =>
              have hp3 : StepPres s s₃ := by
                have hp := createBlobs_pres f files s k₂
                rw [h₃] at hp
                exact hp
              have hwf₃ : WF s₃ := hp3.1 hwf
              have hobs3 : RefsObs s s₃ := hp3.2.2.1 hwf
              have hfiles : ∀ fl ∈ files, ∃ sha, (fl.1, sha) ∈ blobs ∧
                  alookup sha s₃.blobs = some fl.2 :=
                createBlobs_ok f files s k₂ blobs s₃ k₃ hwf h₃
              split at h
              · simp at h
              · next treeSha s₄ k₄ h₄ =>
                  have hp4 : StepPres s₃ s₄ := by
                    have hp := ghCreateTree_pres f headCommit.treeSha
                      (blobs.map (fun b => ⟨b.1, b.2⟩)) s₃ k₃
                    rw [h₄] at hp
                    exact hp
                  have hwf₄ : WF s₄ := hp4.1 hwf₃
                  obtain ⟨baseEntries, hbase, htSha, hs₄⟩ :=
                    ghCreateTree_ok f headCommit.treeSha (blobs.map (fun b => ⟨b.1, b.2⟩))
                      s₃ k₃ treeSha s₄ k₄ h₄
                  have htree : treeSha < s₄.nextSha := by
                    rw [htSha, hs₄]
                    exact Nat.lt_succ_self _
                  split at h
                  · simp at h
                  · next newSha s₅ k₅ h₅ =>
                      obtain ⟨hnSha, hs₅⟩ :=
                        ghCreateCommitObj_ok f treeSha [headSha] message s₄ k₄
                          newSha s₅ k₅ h₅
                      split at h
                      · simp at h
                      · next u s₆ k₆ h₆ =>
                          injection h with ha hbc
                          injection hbc with hb hc
                          injection ha with ha
                          subst hb
                          subst ha
                          have hs₆ :=
                            ghUpdateRef_ok f branchName newSha s₅ k₅ u s₆ k₆ h₆
                          have hrefs₅ : s₅.refs = s.refs := by
                            rw [hs₅, hs₄]
                            exact hobs3.1
                          have hupd₅ : s₅.refUpdates = s.refUpdates := by
                            rw [hs₅, hs₄]
                            exact hobs3.2.1
                          refine ⟨?_, ?_, ?_⟩
                          · rw [hs₆]
                            show aset branchName newSha s₅.refs =
                              aset branchName newSha s.refs
                            rw [hrefs₅]
                          · rw [hs₆]
                            show s₅.refUpdates + 1 = s.refUpdates + 1
                            rw [hupd₅]
                          · refine ⟨⟨treeSha, [headSha], message⟩,
                              mergeTreeEntries baseEntries
                                (blobs.map (fun b => ⟨b.1, b.2⟩)), ?_, ?_, ?_⟩
                            · rw [hs₆]
                              show alookup newSha s₅.commits = some _
                              rw [hs₅]
                              show alookup newSha
                                (s₄.commits ++ [(s₄.nextSha, ⟨treeSha, [headSha], message⟩)]) =
                                some _
                              rw [hnSha]
                              have hnone : alookup s₄.nextSha s₄.commits = none := by
                                refine alookup_eq_none_of_fresh ?_
                                intro p hp
                                exact Nat.ne_of_lt ((hwf₄.2.2.2 p hp).1)
                              rw [alookup_append, hnone]
                              simp [alookup]
                            · rw [hs₆]
                              show alookup treeSha s₅.trees = some _
                              rw [hs₅]
                              show alookup treeSha s₄.trees = some _
                              rw [hs₄]
                              show alookup treeSha
                                (s₃.trees ++ [(s₃.nextSha, mergeTreeEntries baseEntries
                                  (blobs.map (fun b => ⟨b.1, b.2⟩)))]) = some _
                              rw [htSha]
                              have hnone : alookup s₃.nextSha s₃.trees = none := by
                                refine alookup_eq_none_of_fresh ?_
                                intro p hp
                                exact Nat.ne_of_lt (hwf₃.2.2.1 p hp)
                              rw [alookup_append, hnone]
                              simp [alookup]
                            · intro fl hfl
                              obtain ⟨sha, hmem, hlook⟩ := hfiles fl hfl
                              refine ⟨⟨fl.1, sha⟩, ?_, rfl, ?_⟩
                              · exact List.mem_append_right _
                                  (List.mem_map_of_mem
                                    (fun b => (⟨b.1, b.2⟩ : TreeEntry)) hmem)
                              · rw [hs₆]
                                show alookup sha s₅.blobs = some fl.2
                                rw [hs₅]
                                show alookup sha s₄.blobs = some fl.2
                                rw [hs₄]
                                exact hlook

/-- C1: `createCommit` is all-or-nothing.  For every fault schedule,
file list and well-formed repository state: if any step fails (blob,
tree or commit creation, or any of the reads or the final ref update),
the returned result is a failure, the branch-ref table is unchanged, no
ref was moved (`refUpdates` unchanged) and every branch head still
reaches exactly the tree it reached before — no partial tree became
reachable.  On success the ref table changes only by pointing
`branchName` at the new commit, the ref moved exactly once
(`refUpdates` incremented by one), and the new commit's tree contains an
entry for every requested file whose blob holds that file's content. -/
theorem createCommit_atomic (f : Nat → Bool) (branchName : String)
    (files : List (String × String)) (message : String) (s : GitHubState) (k : Nat)
    (hwf : WF s) :
    (∀ e s' k', createCommit f branchName files message s k = (.failure e, s', k') →
      s'.refs = s.refs ∧ s'.refUpdates = s.refUpdates ∧
        ∀ b, headTreeEntries s' b = headTreeEntries s b) ∧
      (∀ d s' k', createCommit f branchName files message s k = (.success d, s', k') →
        s'.refs = aset branchName d.commitSha s.refs ∧
          s'.refUpdates = s.refUpdates + 1 ∧
          ∃ co entries, alookup d.commitSha s'.commits = some co ∧
            alookup co.treeSha s'.trees = some entries ∧
            ∀ fl ∈ files, ∃ en ∈ entries, en.path = fl.1 ∧
              alookup en.sha s'.blobs = some fl.2) :=
  ⟨fun e s' k' h => createCommit_failure_frame f branchName files message s k hwf e s' k' h,
    fun d s' k' h => createCommit_success_frame f branchName files message s k hwf d s' k' h⟩

/-- Initial repository for the C1 witness: `main` at commit 0, whose
tree 1 is empty. -/
def ghWitnessInit : GitHubState :=
  ⟨[("main", 0)], [], [(1, [])], [(0, ⟨1, [], "init"⟩)], 2, 0⟩

/-- Fault-free schedule for the C1 witness. -/
def ghWitnessFaults : Nat → Bool := fun _ => false

/-- The two files committed by the C1 witness. -/
def ghWitnessFiles : List (String × String) :=
  [("src/Hero.tsx", "code"), ("src/Hero.css", "styles")]

/-- Witness for C1, success side: a fault-free two-file commit from a
concrete well-formed state moves the ref once to a commit containing
both files. -/
theorem createCommit_atomic_witness :
    (createCommit ghWitnessFaults "main" ghWitnessFiles "feat" ghWitnessInit 0).2.1.refs =
        aset "main"
          ((⟨5, "feat"⟩ : GitCommitResult)).commitSha ghWitnessInit.refs ∧
      (createCommit ghWitnessFaults "main" ghWitnessFiles "feat"
          ghWitnessInit 0).2.1.refUpdates = ghWitnessInit.refUpdates + 1 ∧
      ∃ co entries,
        alookup ((⟨5, "feat"⟩ : GitCommitResult)).commitSha
            (createCommit ghWitnessFaults "main" ghWitnessFiles "feat"
              ghWitnessInit 0).2.1.commits = some co ∧
          alookup co.treeSha
              (createCommit ghWitnessFaults "main" ghWitnessFiles "feat"
                ghWitnessInit 0).2.1.trees = some entries ∧
          ∀ fl ∈ ghWitnessFiles, ∃ en ∈ entries, en.path = fl.1 ∧
            alookup en.sha
                (createCommit ghWitnessFaults "main" ghWitnessFiles "feat"
                  ghWitnessInit 0).2.1.blobs = some fl.2 :=
  (createCommit_atomic ghWitnessFaults "main" ghWitnessFiles "feat" ghWitnessInit 0
      (by refine ⟨?_, ?_, ?_, ?_⟩ <;> decide)).2
    ⟨5, "feat"⟩
    (createCommit ghWitnessFaults "main" ghWitnessFiles "feat" ghWitnessInit 0).2.1
    (createCommit ghWitnessFaults "main" ghWitnessFiles "feat" ghWitnessInit 0).2.2
    (by decide)

/-! ## C2 — Browser context pool cap (`src/integrations/playwright.ts` lines 57-91)

`getContext`/`releaseContext` of `PlaywrightIntegration`.  The pool is
the triple (`contexts` free list, `activeContexts` counter, context-id
allocator).  `getContext` is not atomic: between the capacity check
`activeContexts < maxContexts` and the increment after
`browser.newContext()` resolves lies an `await`, so a caller can be
suspended in a `creating` phase while others run.  The cooperative
scheduler is modelled as a small-step machine over the pool state and a
list of caller phases; `checkAcquire` runs `getContext` up to its first
suspension (or completion, when a free context is reused),
`resumeCreate` is the resumption after `newContext`, and `releaseCtx`
is `releaseContext`.  The free list is a LIFO stack (the source pushes
and pops at the array end; here the most recently released context is
at the head). -/

/-- `maxContexts` of the source. -/
def maxContexts : Nat := 5

/-- The mutable pool fields of `BrowserPool`. -/
structure PoolState where
  free : List Nat
  active : Nat
  nextCtx : Nat
  deriving Repr, DecidableEq

/-- Where one cooperative caller stands inside `getContext`. -/
inductive CallerPhase where
  | idle
  | creating
  | holding (ctx : Nat)
  deriving Repr, DecidableEq

/-- A scheduler configuration: pool state plus one phase per caller. -/
structure PoolConfig where
  pool : PoolState
  callers : List CallerPhase
  deriving Repr, DecidableEq

/-- One scheduler event, naming the caller it advances. -/
inductive PoolEvent where
  | checkAcquire (i : Nat)
  | resumeCreate (i : Nat)
  | releaseCtx (i : Nat)
  deriving Repr, DecidableEq

/-- Whether a caller is suspended inside `browser.newContext()`. -/
def isCreating : CallerPhase → Bool
  | .creating => true
  | _ => false

/-- Number of callers suspended inside `browser.newContext()`. -/
def countCreating (cs : List CallerPhase) : Nat :=
  cs.countP isCreating

/-- The context id a caller phase holds, if any. -/
def holdId : CallerPhase → Option Nat
  | .holding c => some c
  | _ => none

/-- The context ids currently live: those leased by callers plus the
idle free list. -/
def liveCtxIds (cfg : PoolConfig) : List Nat :=
  cfg.callers.filterMap holdId ++ cfg.pool.free

/-- One step of the cooperative scheduler.  `checkAcquire i` runs
`getContext` for idle caller `i`: reuse from the free list if nonempty
(pop + `activeContexts++`), else pass the `activeContexts < maxContexts`
check and suspend in `newContext` (no state change yet — the increment
comes after the await), else no step is possible (the caller would poll).
`resumeCreate i` finishes `newContext`: allocates the context id and
performs `activeContexts++`.  `releaseCtx i` is `releaseContext`:
pushes the context and decrements `activeContexts`. -/
def poolStep (cfg : PoolConfig) : PoolEvent → Option PoolConfig
  | .checkAcquire i =>
    match cfg.callers[i]? with
    | some .idle =>
      match cfg.pool.free with
      | c :: restFree =>
          some ⟨{ cfg.pool with free := restFree, active := cfg.pool.active + 1 },
            cfg.callers.set i (.holding c)⟩
      | [] =>
          if cfg.pool.active < maxContexts then
            some ⟨cfg.pool, cfg.callers.set i .creating⟩
          else none
    | _ => none
  | .resumeCreate i =>
    match cfg.callers[i]? with
    | some .creating =>
        some ⟨{ cfg.pool with active := cfg.pool.active + 1, nextCtx := cfg.pool.nextCtx + 1 },
          cfg.callers.set i (.holding cfg.pool.nextCtx)⟩
    | _ => none
  | .releaseCtx i =>
    match cfg.callers[i]? with
    | some (.holding c) =>
        some ⟨{ cfg.pool with free := c :: cfg.pool.free, active := cfg.pool.active - 1 },
          cfg.callers.set i .idle⟩
    | _ => none

/-- Run a list of scheduler events from a configuration; `none` when
some event is not enabled. -/
def poolRun (cfg : PoolConfig) : List PoolEvent → Option PoolConfig
  | [] => some cfg
  | e :: rest =>
    match poolStep cfg e with
    | none => none
    | some cfg' => poolRun cfg' rest

/-- The pool as `initialize` leaves it: no contexts yet, six idle
callers available. -/
def poolInitConfig : PoolConfig :=
  ⟨⟨[], 0, 0⟩, List.replicate 6 .idle⟩

/-- The racing schedule: callers 0-3 acquire sequentially (filling
`activeContexts` to 4 with an empty free list), then callers 4 and 5
both pass the `activeContexts < 5` check before either resumes from
`newContext`. -/
def poolRaceEvents : List PoolEvent :=
  [.checkAcquire 0, .resumeCreate 0, .checkAcquire 1, .resumeCreate 1,
    .checkAcquire 2, .resumeCreate 2, .checkAcquire 3, .resumeCreate 3,
    .checkAcquire 4, .checkAcquire 5, .resumeCreate 4, .resumeCreate 5]

/-- Counterexample to C2 as stated: with concurrently-suspended callers
the pool reaches a configuration with six distinct live contexts —
`acquire` exceeds the cap of 5, because the capacity check and the
increment are separated by the `newContext` suspension point. -/
theorem getContext_cap_race_counterexample :
    ∃ cfg : PoolConfig, poolRun poolInitConfig poolRaceEvents = some cfg ∧
      (liveCtxIds cfg).Nodup ∧ (liveCtxIds cfg).length = 6 ∧
      maxContexts < (liveCtxIds cfg).length := by
  refine ⟨⟨⟨[], 6, 6⟩,
    [.holding 0, .holding 1, .holding 2, .holding 3, .holding 4, .holding 5]⟩, ?_, ?_, ?_, ?_⟩
  · decide
  · decide
  · decide
  · decide

/-- Number of callers currently holding a context. -/
def countHolding (cs : List CallerPhase) : Nat :=
  cs.countP (fun p => (holdId p).isSome)

theorem length_filterMap_holdId (cs : List CallerPhase) :
    (cs.filterMap holdId).length = countHolding cs := by
  induction cs with
  | nil => rfl
  | cons p rest ih =>
    cases p <;> simp [List.filterMap_cons, countHolding, List.countP_cons, holdId] at ih ⊢ <;>
      omega

theorem filterMap_set_decomp {α β : Type} (g : α → Option β) :
    ∀ (cs : List α) (i : Nat) (a : α), cs[i]? = some a → ∀ b : α,
      ∃ L R, cs.filterMap g = L ++ (g a).toList ++ R ∧
        (cs.set i b).filterMap g = L ++ (g b).toList ++ R := by
  intro cs
  induction cs with
  | nil => intro i a h b; simp at h
  | cons x rest ih =>
    intro i a h b
    cases i with
    | zero =>
      simp only [List.getElem?_cons_zero, Option.some.injEq] at h
      subst h
      refine ⟨[], rest.filterMap g, ?_, ?_⟩
      · cases hg : g x <;> simp [List.filterMap_cons, hg]
      · cases hg : g b <;> simp [List.filterMap_cons, hg, List.set]
    | succ i' =>
      simp only [List.getElem?_cons_succ] at h
      obtain ⟨L, R, h1, h2⟩ := ih i' a h b
      refine ⟨(g x).toList ++ L, R, ?_, ?_⟩
      · cases hg : g x <;> simp [List.filterMap_cons, hg, h1]
      · cases hg : g x <;> simp [List.filterMap_cons, hg, List.set, h2]

theorem countP_set_decomp {α : Type} (q : α → Bool) :
    ∀ (cs : List α) (i : Nat) (a : α), cs[i]? = some a → ∀ b : α,
      (cs.set i b).countP q + (if q a then 1 else 0) =
        cs.countP q + (if q b then 1 else 0) := by
  intro cs
  induction cs with
  | nil => intro i a h b; simp at h
  | cons x rest ih =>
    intro i a h b
    cases i with
    | zero =>
      simp only [List.getElem?_cons_zero, Option.some.injEq] at h
      subst h
      simp only [List.set, List.countP_cons]
      omega
    | succ i' =>
      simp only [List.getElem?_cons_succ] at h
      have := ih i' a h b
      simp only [List.set, List.countP_cons]
      omega

/-- The pool invariant maintained by sequentially-disciplined schedules:
`activeContexts` counts the holders, the live context ids are distinct
and below the allocator, and holders + idle + in-flight creations fit
under the cap. -/
def PoolInv (cfg : PoolConfig) : Prop :=
  cfg.pool.active = countHolding cfg.callers ∧
    (liveCtxIds cfg).Nodup ∧
    (∀ c ∈ liveCtxIds cfg, c < cfg.pool.nextCtx) ∧
    cfg.pool.active + cfg.pool.free.length + countCreating cfg.callers ≤ maxContexts

/-- A sequentially-disciplined step: an acquire may start only while no
other caller is suspended inside `newContext` (acquires do not overlap
the creation suspension point). -/
def poolStepSeq (cfg : PoolConfig) : PoolEvent → Option PoolConfig
  | .checkAcquire i =>
    if countCreating cfg.callers = 0 then poolStep cfg (.checkAcquire i) else none
  | .resumeCreate i => poolStep cfg (.resumeCreate i)
  | .releaseCtx i => poolStep cfg (.releaseCtx i)

/-- Run a sequentially-disciplined schedule. -/
def poolRunSeq (cfg : PoolConfig) : List PoolEvent → Option PoolConfig
  | [] => some cfg
  | e :: rest =>
    match poolStepSeq cfg e with
    | none => none
    | some cfg' => poolRunSeq cfg' rest

theorem countHolding_set_decomp (cs : List CallerPhase) (i : Nat) (a b : CallerPhase)
    (h : cs[i]? = some a) :
    countHolding (cs.set i b) + (if (holdId a).isSome then 1 else 0) =
      countHolding cs + (if (holdId b).isSome then 1 else 0) :=
  countP_set_decomp (fun p => (holdId p).isSome) cs i a h b

theorem countCreating_set_decomp (cs : List CallerPhase) (i : Nat) (a b : CallerPhase)
    (h : cs[i]? = some a) :
    countCreating (cs.set i b) + (if isCreating a then 1 else 0) =
      countCreating cs + (if isCreating b then 1 else 0) :=
  countP_set_decomp isCreating cs i a h b

theorem poolStepSeq_inv {cfg cfg' : PoolConfig} {e : PoolEvent}
    (hinv : PoolInv cfg) (h : poolStepSeq cfg e = some cfg') : PoolInv cfg' := by
  obtain ⟨hact, hnodup, hbound, hsum⟩ := hinv
  cases e with
  | checkAcquire i =>
    simp only [poolStepSeq] at h
    split at h
    · rename_i hseq
      simp only [poolStep] at h
      split at h
      · rename_i hidle
        split at h
        · rename_i c restFree hfree
          injection h with hb
          subst hb
          obtain ⟨L, R, hLRa, hLRb⟩ :=
            filterMap_set_decomp holdId cfg.callers i .idle hidle (.holding c)
          simp only [holdId, Option.toList_none, Option.toList_some,
            List.nil_append, List.append_nil] at hLRa hLRb
          have hch := countHolding_set_decomp cfg.callers i .idle (.holding c) hidle
          simp [holdId] at hch
          have hcc := countCreating_set_decomp cfg.callers i .idle (.holding c) hidle
          simp [isCreating] at hcc
          have hperm : List.Perm
              (liveCtxIds ⟨{ cfg.pool with
                free := restFree, active := cfg.pool.active + 1 },
                cfg.callers.set i (.holding c)⟩) (liveCtxIds cfg) := by
            unfold liveCtxIds
            show List.Perm
              ((cfg.callers.set i (.holding c)).filterMap holdId ++ restFree)
              (cfg.callers.filterMap holdId ++ cfg.pool.free)
            rw [hLRb, hLRa, hfree]
            simp only [List.append_assoc, List.singleton_append]
            exact List.Perm.append_left L List.perm_middle.symm
          have hlen : cfg.pool.free.length = restFree.length + 1 := by
            rw [hfree]; rfl
          refine ⟨?_, ?_, ?_, ?_⟩
          · show cfg.pool.active + 1 = countHolding (cfg.callers.set i (.holding c))
            omega
          · exact hperm.nodup_iff.mpr hnodup
          · intro x hx
            show x < cfg.pool.nextCtx
            exact hbound x (hperm.mem_iff.mp hx)
          · show cfg.pool.active + 1 + restFree.length +
              countCreating (cfg.callers.set i (.holding c)) ≤ maxContexts
            omega
        · rename_i hfree
          split at h
          · rename_i hlt
            injection h with hb
            subst hb
            obtain ⟨L, R, hLRa, hLRb⟩ :=
              filterMap_set_decomp holdId cfg.callers i .idle hidle .creating
            simp only [holdId, Option.toList_none, List.nil_append,
              List.append_nil] at hLRa hLRb
            have hch := countHolding_set_decomp cfg.callers i .idle .creating hidle
            simp [holdId] at hch
            have hcc := countCreating_set_decomp cfg.callers i .idle .creating hidle
            simp [isCreating] at hcc
            have hlive : liveCtxIds ⟨cfg.pool, cfg.callers.set i .creating⟩ =
                liveCtxIds cfg := by
              unfold liveCtxIds
              show (cfg.callers.set i .creating).filterMap holdId ++ cfg.pool.free =
                cfg.callers.filterMap holdId ++ cfg.pool.free
              rw [hLRb, hLRa]
            refine ⟨?_, ?_, ?_, ?_⟩
            · show cfg.pool.active = countHolding (cfg.callers.set i .creating)
              omega
            · rw [hlive]; exact hnodup
            · intro x hx
              rw [hlive] at hx
              exact hbound x hx
            · show cfg.pool.active + cfg.pool.free.length +
                countCreating (cfg.callers.set i .creating) ≤ maxContexts
              have hfreelen : cfg.pool.free.length = 0 := by
                rw [hfree]; rfl
              omega
          · exact Option.noConfusion h
      · exact Option.noConfusion h
    · exact Option.noConfusion h
  | resumeCreate i =>
    simp only [poolStepSeq, poolStep] at h
    split at h
    · rename_i hcre
      injection h with hb
      subst hb
      obtain ⟨L, R, hLRa, hLRb⟩ :=
        filterMap_set_decomp holdId cfg.callers i .creating hcre
          (.holding cfg.pool.nextCtx)
      simp only [holdId, Option.toList_none, Option.toList_some, List.nil_append,
        List.append_nil] at hLRa hLRb
      have hch := countHolding_set_decomp cfg.callers i .creating
        (.holding cfg.pool.nextCtx) hcre
      simp [holdId] at hch
      have hcc := countCreating_set_decomp cfg.callers i .creating
        (.holding cfg.pool.nextCtx) hcre
      simp [isCreating] at hcc
      have hliveold : liveCtxIds cfg = L ++ (R ++ cfg.pool.free) := by
        unfold liveCtxIds
        rw [hLRa, List.append_assoc]
      have hlivenew : liveCtxIds ⟨{ cfg.pool with
          active := cfg.pool.active + 1, nextCtx := cfg.pool.nextCtx + 1 },
          cfg.callers.set i (.holding cfg.pool.nextCtx)⟩ =
          L ++ cfg.pool.nextCtx :: (R ++ cfg.pool.free) := by
        unfold liveCtxIds
        show (cfg.callers.set i (.holding cfg.pool.nextCtx)).filterMap holdId ++
          cfg.pool.free = _
        rw [hLRb]
        simp
      have hnotmem : cfg.pool.nextCtx ∉ L ++ (R ++ cfg.pool.free) := by
        intro hmem
        have := hbound cfg.pool.nextCtx (by rw [hliveold]; exact hmem)
        omega
      refine ⟨?_, ?_, ?_, ?_⟩
      · show cfg.pool.active + 1 =
          countHolding (cfg.callers.set i (.holding cfg.pool.nextCtx))
        omega
      · rw [hlivenew]
        rw [List.nodup_middle, List.nodup_cons]
        refine ⟨hnotmem, ?_⟩
        rw [hliveold] at hnodup
        exact hnodup
      · intro x hx
        rw [hlivenew] at hx
        show x < cfg.pool.nextCtx + 1
        rcases List.mem_append.mp hx with hx' | hx'
        · have hx2 : x ∈ L ++ (R ++ cfg.pool.free) := List.mem_append_left _ hx'
          have := hbound x (by rw [hliveold]; exact hx2)
          omega
        · rcases List.mem_cons.mp hx' with hx'' | hx''
          · omega
          · have hx2 : x ∈ L ++ (R ++ cfg.pool.free) := List.mem_append_right _ hx''
            have := hbound x (by rw [hliveold]; exact hx2)
            omega
      · show cfg.pool.active + 1 + cfg.pool.free.length +
          countCreating (cfg.callers.set i (.holding cfg.pool.nextCtx)) ≤ maxContexts
        omega
    · exact Option.noConfusion h
  | releaseCtx i =>
    simp only [poolStepSeq, poolStep] at h
    split at h
    · rename_i c hhold
      injection h with hb
      subst hb
      obtain ⟨L, R, hLRa, hLRb⟩ :=
        filterMap_set_decomp holdId cfg.callers i (.holding c) hhold .idle
      simp only [holdId, Option.toList_none, Option.toList_some, List.nil_append,
        List.append_nil] at hLRa hLRb
      have hch := countHolding_set_decomp cfg.callers i (.holding c) .idle hhold
      simp [holdId] at hch
      have hcc := countCreating_set_decomp cfg.callers i (.holding c) .idle hhold
      simp [isCreating] at hcc
      have hperm : List.Perm
          (liveCtxIds ⟨{ cfg.pool with
            free := c :: cfg.pool.free, active := cfg.pool.active - 1 },
            cfg.callers.set i .idle⟩) (liveCtxIds cfg) := by
        unfold liveCtxIds
        show List.Perm
          ((cfg.callers.set i .idle).filterMap holdId ++ (c :: cfg.pool.free))
          (cfg.callers.filterMap holdId ++ cfg.pool.free)
        rw [hLRb, hLRa]
        simp only [List.append_assoc, List.singleton_append]
        exact List.Perm.append_left L List.perm_middle
      refine ⟨?_, ?_, ?_, ?_⟩
      · show cfg.pool.active - 1 = countHolding (cfg.callers.set i .idle)
        omega
      · exact hperm.nodup_iff.mpr hnodup
      · intro x hx
        show x < cfg.pool.nextCtx
        exact hbound x (hperm.mem_iff.mp hx)
      · show cfg.pool.active - 1 + (c :: cfg.pool.free).length +
          countCreating (cfg.callers.set i .idle) ≤ maxContexts
        simp only [List.length_cons]
        omega
    · exact Option.noConfusion h

theorem poolRunSeq_inv :
    ∀ (events : List PoolEvent) (cfg₀ cfg : PoolConfig), PoolInv cfg₀ →
      poolRunSeq cfg₀ events = some cfg → PoolInv cfg := by
  intro events
  induction events with
  | nil =>
    intro cfg₀ cfg hinv h
    injection h with h
    rw [← h]
    exact hinv
  | cons e rest ih =>
    intro cfg₀ cfg hinv h
    simp only [poolRunSeq] at h
    split at h
    · exact Option.noConfusion h
    · rename_i cfg₁ hstep
      exact ih cfg₁ cfg (poolStepSeq_inv hinv hstep) h

/-- Amended C2: (a) along every sequentially-disciplined schedule (no
acquire overlaps another caller's suspended `newContext` call) starting
from the freshly initialized pool, the live contexts (leased plus idle)
are pairwise distinct and never number more than the cap of 5; (b) after
any `releaseContext`, an immediately following acquire by an idle caller
receives exactly the released context, with no new context created
(`nextCtx` unchanged — the engine is not touched, let alone relaunched)
and the free list restored.  The unrestricted scheduler violates the
cap (see the race counterexample): the cap check and the increment are
separated by the `newContext` suspension. -/
theorem pool_cap_sequential_and_release_reacquire :
    (∀ (events : List PoolEvent) (cfg : PoolConfig),
      poolRunSeq poolInitConfig events = some cfg →
      (liveCtxIds cfg).Nodup ∧ (liveCtxIds cfg).length ≤ maxContexts) ∧
      (∀ (cfg cfg₁ cfg₂ : PoolConfig) (i j c : Nat),
        cfg.callers[i]? = some (.holding c) →
        poolStep cfg (.releaseCtx i) = some cfg₁ →
        poolStep cfg₁ (.checkAcquire j) = some cfg₂ →
        cfg₁.callers[j]? = some .idle →
        cfg₂.callers[j]? = some (.holding c) ∧
          cfg₂.pool.nextCtx = cfg.pool.nextCtx ∧
          cfg₂.pool.free = cfg.pool.free) := by
  constructor
  · intro events cfg hrun
    have hinit : PoolInv poolInitConfig := by
      refine ⟨?_, ?_, ?_, ?_⟩ <;> decide
    have hinv := poolRunSeq_inv events poolInitConfig cfg hinit hrun
    obtain ⟨hact, hnodup, hbound, hsum⟩ := hinv
    refine ⟨hnodup, ?_⟩
    unfold liveCtxIds
    rw [List.length_append, length_filterMap_holdId]
    omega
  · intro cfg cfg₁ cfg₂ i j c hhold h1 h2 hidle
    simp only [poolStep] at h1
    split at h1
    · rename_i c' hhold'
      rw [hhold] at hhold'
      injection hhold' with hhold'
      injection hhold' with hc'
      subst hc'
      injection h1 with hb
      subst hb
      simp only [poolStep] at h2
      split at h2
      · rename_i hidle'
        injection h2 with hb2
        subst hb2
        have hjlt : j < (cfg.callers.set i CallerPhase.idle).length := by
          by_contra hge
          rw [List.getElem?_eq_none (Nat.le_of_not_lt hge)] at hidle
          exact Option.noConfusion hidle
        refine ⟨?_, rfl, rfl⟩
        show ((cfg.callers.set i CallerPhase.idle).set j
          (CallerPhase.holding c))[j]? = some (CallerPhase.holding c)
        exact List.getElem?_set_eq_of_lt _ hjlt
      · exact Option.noConfusion h2
    · exact Option.noConfusion h1

/-- Witness for the amended C2: a two-event sequential schedule
(caller 0 passes the check, then resumes creation) stays within the
cap; and in a concrete configuration where caller 1 holds context 7,
releasing it and then acquiring as caller 0 hands over exactly
context 7, with no new context created and the free list restored. -/
theorem pool_cap_sequential_and_release_reacquire_witness :
    ((liveCtxIds ⟨⟨[], 1, 1⟩,
        [.holding 0, .idle, .idle, .idle, .idle, .idle]⟩).Nodup ∧
      (liveCtxIds ⟨⟨[], 1, 1⟩,
        [.holding 0, .idle, .idle, .idle, .idle, .idle]⟩).length ≤ maxContexts) ∧
      ((⟨⟨[], 1, 8⟩, [.holding 7, .idle]⟩ : PoolConfig).callers[0]? =
          some (.holding 7) ∧
        (⟨⟨[], 1, 8⟩, [.holding 7, .idle]⟩ : PoolConfig).pool.nextCtx =
          (⟨⟨[], 1, 8⟩, [.idle, .holding 7]⟩ : PoolConfig).pool.nextCtx ∧
        (⟨⟨[], 1, 8⟩, [.holding 7, .idle]⟩ : PoolConfig).pool.free =
          (⟨⟨[], 1, 8⟩, [.idle, .holding 7]⟩ : PoolConfig).pool.free) :=
  ⟨pool_cap_sequential_and_release_reacquire.1
      [.checkAcquire 0, .resumeCreate 0]
      ⟨⟨[], 1, 1⟩, [.holding 0, .idle, .idle, .idle, .idle, .idle]⟩ (by decide),
    pool_cap_sequential_and_release_reacquire.2
      ⟨⟨[], 1, 8⟩, [.idle, .holding 7]⟩
      ⟨⟨[7], 0, 8⟩, [.idle, .idle]⟩
      ⟨⟨[], 1, 8⟩, [.holding 7, .idle]⟩
      1 0 7 (by decide) (by decide) (by decide) (by decide)⟩

/-! ## C3 — Acquire after shutdown (`src/integrations/playwright.ts` lines 32-55, 457-472)

`initialize`/`createBrowserPool`, `close` and the entry of
`getContext`.  `close()` nulls both `browserPool` and
`initializationPromise`; `getContext()` begins with `await
this.initialize()`, which, finding both null, runs
`createBrowserPool()` — `chromium.launch` — again.  The lifecycle is
modelled sequentially (one caller at a time): `launches` counts
`chromium.launch` calls, `pool = none` models `browserPool === null`,
and `getContextPW` is a whole `getContext` call run to completion. -/

/-- `PlaywrightIntegration`'s lifecycle state: the optional browser
pool and the number of engine launches performed so far. -/
structure PWState where
  pool : Option PoolState
  launches : Nat
  deriving Repr, DecidableEq

/-- `initialize()` (with `createBrowserPool`): a no-op when the pool
exists; otherwise launches the engine and installs an empty pool. -/
def initializePW (s : PWState) : PWState :=
  match s.pool with
  | some _ => s
  | none => { pool := some ⟨[], 0, 0⟩, launches := s.launches + 1 }

/-- `close()`: closes all contexts and the browser, nulls
`browserPool` and `initializationPromise`; the launch count is
history and unchanged. -/
def closePW (s : PWState) : PWState :=
  { pool := none, launches := s.launches }

/-- One sequential `getContext()` call: `await initialize()` first,
then the unreachable null guard, then reuse / create-under-cap /
block (modelled as `none`). -/
def getContextPW (s : PWState) : Option (Nat × PWState) :=
  let s₁ := initializePW s
  match s₁.pool with
  | none => none
  | some p =>
    match p.free with
    | c :: restFree =>
        some (c, { s₁ with pool := some { p with free := restFree, active := p.active + 1 } })
    | [] =>
        if p.active < maxContexts then
          some (p.nextCtx, { s₁ with
            pool := some { p with active := p.active + 1, nextCtx := p.nextCtx + 1 } })
        else none

/-- Counterexample to C3 as stated: from a freshly initialized pool
(one launch so far), calling `close()` and then `getContext()` does not
fail fast — the acquire succeeds, returning context 0, and the launch
count rises from 1 to 2: the engine was silently relaunched by the
acquire itself, with no explicit re-initialize in between. -/
theorem close_acquire_relaunch_counterexample :
    (closePW (initializePW ⟨none, 0⟩)).launches = 1 ∧
      getContextPW (closePW (initializePW ⟨none, 0⟩)) =
        some (0, ⟨some ⟨[], 1, 1⟩, 2⟩) := by
  constructor
  · rfl
  · rfl

/-- Amended C3: after `close()`, and with no explicit re-initialize in
between, every `getContext()` call succeeds rather than failing fast:
it lazily re-initializes the pool, relaunching the engine exactly once
(`launches` increments), and returns the first context of the fresh
pool. -/
theorem acquire_after_close_relaunches (s : PWState) :
    getContextPW (closePW s) =
      some (0, ⟨some ⟨[], 1, 1⟩, s.launches + 1⟩) := rfl

/-! ## C7 — Node-id round-trip (`src/utils/figma-parser.ts` lines 1222-1282)

`FigmaUrlParser.extractNodeId`, `decodeNodeId` and `createFigmaUrl`.
Strings are modelled as `List Char`.  The JS built-ins
`decodeURIComponent`/`encodeURIComponent` are modelled on their ASCII
fragment (a `%`-escape decoding to a byte ≥ 0x80 would begin a
multi-byte UTF-8 sequence; Figma node ids are digits and `:`/`-`, all
ASCII, so the fragment is exact here), with a malformed escape raising
(modelled by `none`, caught by `decodeNodeId` returning its input).
The regexes are modelled by direct scanners: `FIGMA_NODE_REGEX`
(`/node-id=([^&]+)/`) as a left-to-right scan for `node-id=` followed
by a maximal nonempty run of non-`&` characters, and the whole-input
node-id test (`/^\d+[-:]\d+$/`) as `nodeIdPat`. -/

/-- Value of a hex digit, upper or lower case (code points 48-57,
65-70 and 97-102). -/
def hexDigitVal (c : Char) : Option Nat :=
  let u := c.toNat
  if 48 ≤ u ∧ u ≤ 57 then some (u - 48)
  else if 65 ≤ u ∧ u ≤ 70 then some (u - 55)
  else if 97 ≤ u ∧ u ≤ 102 then some (u - 87)
  else none

/-- Upper-case hex digit for a value below 16. -/
def hexUpperChar (n : Nat) : Char :=
  Char.ofNat (if n < 10 then 48 + n else 55 + n)

/-- The characters `encodeURIComponent` leaves unescaped. -/
def isUnreservedChar (c : Char) : Bool :=
  c.isAlphanum || c = '-' || c = '_' || c = '.' || c = '!' || c = '~' || c = '*' ||
    c = Char.ofNat 39 || c = '(' || c = ')'

/-- `encodeURIComponent` on one ASCII character. -/
def percentEncodeChar (c : Char) : List Char :=
  if isUnreservedChar c then [c]
  else ['%', hexUpperChar (c.toNat / 16), hexUpperChar (c.toNat % 16)]

/-- `encodeURIComponent` on an ASCII string. -/
def encodeURIComponentChars (s : List Char) : List Char :=
  (s.map percentEncodeChar).flatten

/-- `decodeURIComponent` on the ASCII fragment: `%XY` escapes decode to
their byte when below 0x80; a malformed or non-ASCII escape raises
(`none`). -/
def percentDecode : List Char → Option (List Char)
  | [] => some []
  | c :: rest =>
    if c = '%' then
      match rest with
      | h₁ :: h₂ :: rest₂ =>
        match hexDigitVal h₁, hexDigitVal h₂ with
        | some d₁, some d₂ =>
          if 16 * d₁ + d₂ < 128 then
            (percentDecode rest₂).map (fun ds => Char.ofNat (16 * d₁ + d₂) :: ds)
          else none
        | _, _ => none
      | _ => none
    else (percentDecode rest).map (fun ds => c :: ds)

/-- `decoded.replace(/%3A/g, ":")`: left-to-right, non-overlapping. -/
def replacePercent3A : List Char → List Char
  | [] => []
  | c :: rest =>
    if c = '%' then
      match rest with
      | '3' :: 'A' :: rest₂ => ':' :: replacePercent3A rest₂
      | other => c :: replacePercent3A other
    else c :: replacePercent3A rest

/-- `decodeNodeId`: percent-decode, then normalise `%3A` to `:`; the
`catch` returns the input unchanged. -/
def decodeNodeId (encodedNodeId : List Char) : List Char :=
  match percentDecode encodedNodeId with
  | some decoded => replacePercent3A decoded
  | none => encodedNodeId

/-- The whole-input test `/^\d+[-:]\d+$/`. -/
def nodeIdPat (s : List Char) : Bool :=
  decide (s.takeWhile Char.isDigit ≠ []) &&
    match s.dropWhile Char.isDigit with
    | c :: rest₂ => (c = '-' || c = ':') && decide (rest₂ ≠ []) && rest₂.all Char.isDigit
    | [] => false

/-- `input.replace("-", ":")`: first occurrence only. -/
def replaceFirstHyphen : List Char → List Char
  | [] => []
  | c :: rest => if c = '-' then ':' :: rest else c :: replaceFirstHyphen rest

/-- The first match of `/node-id=([^&]+)/`: scan for `node-id=`
followed by at least one non-`&` character; the capture is the maximal
run of non-`&` characters. -/
def figmaNodeCapture : List Char → Option (List Char)
  | [] => none
  | c :: rest =>
    if (c :: rest).take 8 = "node-id=".data then
      let cap := ((c :: rest).drop 8).takeWhile (fun x => x ≠ '&')
      if cap = [] then figmaNodeCapture rest else some cap
    else figmaNodeCapture rest

/-- `FigmaUrlParser.extractNodeId`: an input already of node-id shape
has its first hyphen made a colon; otherwise the `node-id` query
parameter is captured and decoded; otherwise `null`. -/
def extractNodeId (input : List Char) : Option (List Char) :=
  if nodeIdPat input then some (replaceFirstHyphen input)
  else
    match figmaNodeCapture input with
    | some captured => some (decodeNodeId captured)
    | none => none

/-- `FigmaUrlParser.createFigmaUrl`. -/
def createFigmaUrl (fileId : List Char) (nodeId : Option (List Char))
    (fileName : Option (List Char)) : List Char :=
  let base := "https://www.figma.com/file/".data ++ fileId ++ ['/'] ++
    (match fileName with
      | some nm => nm
      | none => "design".data)
  match nodeId with
  | some nid => base ++ "?node-id=".data ++ encodeURIComponentChars nid
  | none => base

theorem nodeIdPat_chars {n : List Char} (h : nodeIdPat n = true) :
    (∀ c ∈ n, c.isDigit = true ∨ c = ':' ∨ c = '-') ∧ n ≠ [] := by
  unfold nodeIdPat at h
  rw [Bool.and_eq_true] at h
  obtain ⟨h1, h2⟩ := h
  have hds : n.takeWhile Char.isDigit ≠ [] := of_decide_eq_true h1
  constructor
  · intro c hc
    rw [← List.takeWhile_append_dropWhile (p := Char.isDigit) (l := n)] at hc
    rcases List.mem_append.mp hc with hc' | hc'
    · exact Or.inl (List.mem_takeWhile_imp hc')
    · cases hrest : n.dropWhile Char.isDigit with
      | nil => rw [hrest] at hc'; cases hc'
      | cons c₀ rest₂ =>
        rw [hrest] at h2 hc'
        rw [Bool.and_eq_true, Bool.and_eq_true, Bool.or_eq_true] at h2
        obtain ⟨⟨hsep, _⟩, hall⟩ := h2
        rcases List.mem_cons.mp hc' with hc'' | hc''
        · subst hc''
          rcases hsep with hs | hs
          · exact Or.inr (Or.inr (of_decide_eq_true hs))
          · exact Or.inr (Or.inl (of_decide_eq_true hs))
        · exact Or.inl (List.all_eq_true.mp hall c hc'')
  · intro hnil
    subst hnil
    exact hds rfl

theorem percentEncodeChar_digit {c : Char} (h : c.isDigit = true) :
    percentEncodeChar c = [c] := by
  have hu : isUnreservedChar c = true := by
    simp [isUnreservedChar, Char.isAlphanum, h]
  simp [percentEncodeChar, hu]

theorem digit_ne_pct {c : Char} (h : c.isDigit = true) : c ≠ '%' := by
  intro heq
  rw [heq] at h
  exact absurd h (by decide)

theorem encodeURIComponentChars_cons (c : Char) (rest : List Char) :
    encodeURIComponentChars (c :: rest) =
      percentEncodeChar c ++ encodeURIComponentChars rest := by
  simp [encodeURIComponentChars]

theorem percentDecode_cons_notpct {c : Char} (h : c ≠ '%') (rest : List Char) :
    percentDecode (c :: rest) = (percentDecode rest).map (fun ds => c :: ds) := by
  rcases rest with _ | ⟨a, _ | ⟨b, r⟩⟩ <;> simp [percentDecode, h]

theorem percentDecode_p3A (rest : List Char) :
    percentDecode ('%' :: '3' :: 'A' :: rest) =
      (percentDecode rest).map (fun ds => ':' :: ds) := by
  have h3 : hexDigitVal '3' = some 3 := by decide
  have hA : hexDigitVal 'A' = some 10 := by decide
  have hch : Char.ofNat (16 * 3 + 10) = ':' := by decide
  simp [percentDecode, h3, hA, hch]

theorem replacePercent3A_cons_notpct {c : Char} (hc : c ≠ '%') (rest : List Char) :
    replacePercent3A (c :: rest) = c :: replacePercent3A rest := by
  rw [replacePercent3A.eq_def]
  simp [hc]

theorem percentDecode_encode (n : List Char)
    (h : ∀ c ∈ n, c.isDigit = true ∨ c = ':' ∨ c = '-') :
    percentDecode (encodeURIComponentChars n) = some n := by
  induction n with
  | nil => rfl
  | cons c rest ih =>
    have hc := h c (List.mem_cons_self _ _)
    have hrest := fun x hx => h x (List.mem_cons_of_mem _ hx)
    rw [encodeURIComponentChars_cons]
    rcases hc with hd | hcol | hhy
    · rw [percentEncodeChar_digit hd, List.singleton_append,
        percentDecode_cons_notpct (digit_ne_pct hd), ih hrest]
      rfl
    · subst hcol
      rw [show percentEncodeChar ':' = ['%', '3', 'A'] from by decide]
      show percentDecode ('%' :: '3' :: 'A' :: encodeURIComponentChars rest) = _
      rw [percentDecode_p3A, ih hrest]
      rfl
    · subst hhy
      rw [show percentEncodeChar '-' = ['-'] from by decide, List.singleton_append,
        percentDecode_cons_notpct (by decide : ('-' : Char) ≠ '%'), ih hrest]
      rfl

theorem replacePercent3A_id (l : List Char) (h : ∀ c ∈ l, c ≠ '%') :
    replacePercent3A l = l := by
  induction l with
  | nil => rfl
  | cons c rest ih =>
    have hc : c ≠ '%' := h c (List.mem_cons_self _ _)
    rw [replacePercent3A.eq_def]
    simp [hc]
    exact ih (fun x hx => h x (List.mem_cons_of_mem _ hx))

theorem decodeNodeId_encode (n : List Char)
    (h : ∀ c ∈ n, c.isDigit = true ∨ c = ':' ∨ c = '-') :
    decodeNodeId (encodeURIComponentChars n) = n := by
  unfold decodeNodeId
  rw [percentDecode_encode n h]
  refine replacePercent3A_id n ?_
  intro c hc
  rcases h c hc with hd | hcol | hhy
  · exact digit_ne_pct hd
  · subst hcol; decide
  · subst hhy; decide

theorem encode_no_amp_eq (n : List Char)
    (h : ∀ c ∈ n, c.isDigit = true ∨ c = ':' ∨ c = '-') :
    ∀ x ∈ encodeURIComponentChars n, x ≠ '&' ∧ x ≠ '=' := by
  induction n with
  | nil => intro x hx; cases hx
  | cons c rest ih =>
    intro x hx
    rw [encodeURIComponentChars_cons] at hx
    rcases List.mem_append.mp hx with hx' | hx'
    · rcases h c (List.mem_cons_self _ _) with hd | hcol | hhy
      · rw [percentEncodeChar_digit hd, List.mem_singleton] at hx'
        subst hx'
        constructor
        · intro heq; rw [heq] at hd; exact absurd hd (by decide)
        · intro heq; rw [heq] at hd; exact absurd hd (by decide)
      · subst hcol
        rw [show percentEncodeChar ':' = ['%', '3', 'A'] from by decide] at hx'
        rcases hx' with _ | ⟨_, _ | ⟨_, _ | ⟨_, hx''⟩⟩⟩ <;> first | decide | cases hx''
      · subst hhy
        rw [show percentEncodeChar '-' = ['-'] from by decide, List.mem_singleton] at hx'
        subst hx'
        exact ⟨by decide, by decide⟩
    · exact ih (fun y hy => h y (List.mem_cons_of_mem _ hy)) x hx'

theorem encode_ne_nil (n : List Char) (hne : n ≠ [])
    (h : ∀ c ∈ n, c.isDigit = true ∨ c = ':' ∨ c = '-') :
    encodeURIComponentChars n ≠ [] := by
  cases n with
  | nil => exact absurd rfl hne
  | cons c rest =>
    rw [encodeURIComponentChars_cons]
    rcases h c (List.mem_cons_self _ _) with hd | hcol | hhy
    · rw [percentEncodeChar_digit hd]
      simp
    · subst hcol
      rw [show percentEncodeChar ':' = ['%', '3', 'A'] from by decide]
      simp
    · subst hhy
      rw [show percentEncodeChar '-' = ['-'] from by decide]
      simp

theorem takeWhile_ne_amp_eq_self (e : List Char) (h : ∀ c ∈ e, c ≠ '&') :
    e.takeWhile (fun x => x ≠ '&') = e := by
  induction e with
  | nil => rfl
  | cons c rest ih =>
    have hc : c ≠ '&' := h c (List.mem_cons_self _ _)
    rw [List.takeWhile_cons]
    simp [hc]
    exact fun x hx => h x (List.mem_cons_of_mem _ hx)

theorem eq_notin_take7 (pre : List Char) (e : List Char) (hpre : '=' ∉ pre) :
    '=' ∉ (pre ++ ("node-id=".data ++ e)).take 7 := by
  intro hmem
  rw [List.take_append_eq_append_take] at hmem
  rcases List.mem_append.mp hmem with h | h
  · exact hpre (List.mem_of_mem_take h)
  · have hk : 7 - pre.length ≤ 7 := Nat.sub_le _ _
    have h8 : 7 - pre.length ≤ ("node-id=".data).length := by
      have : ("node-id=".data).length = 8 := rfl
      omega
    rw [List.take_append_of_le_length h8] at h
    have h2 : '=' ∈ ("node-id=".data).take 7 := by
      have htt := List.take_take (7 - pre.length) 7 "node-id=".data
      rw [Nat.min_eq_left hk] at htt
      rw [← htt] at h
      exact List.mem_of_mem_take h
    revert h2
    decide

theorem figmaNodeCapture_cons (c : Char) (rest : List Char) :
    figmaNodeCapture (c :: rest) =
      if (c :: rest).take 8 = "node-id=".data then
        (if ((c :: rest).drop 8).takeWhile (fun x => x ≠ '&') = [] then
          figmaNodeCapture rest
        else some (((c :: rest).drop 8).takeWhile (fun x => x ≠ '&')))
      else figmaNodeCapture rest := by
  rw [figmaNodeCapture.eq_def]

theorem figmaNodeCapture_append (e : List Char)
    (hamp : ∀ c ∈ e, c ≠ '&') (hne : e ≠ []) :
    ∀ pre : List Char, '=' ∉ pre →
      figmaNodeCapture (pre ++ ("node-id=".data ++ e)) = some e := by
  intro pre
  induction pre with
  | nil =>
    intro _
    rw [List.nil_append]
    rw [show "node-id=".data ++ e = 'n' :: ("ode-id=".data ++ e) from rfl]
    rw [figmaNodeCapture_cons]
    have hlen7 : ("ode-id=".data).length = 7 := rfl
    have htake : ('n' :: ("ode-id=".data ++ e)).take 8 = "node-id=".data := by
      have htl := List.take_left "ode-id=".data e
      rw [hlen7] at htl
      show 'n' :: ("ode-id=".data ++ e).take 7 = 'n' :: "ode-id=".data
      rw [htl]
    rw [if_pos htake]
    have hdrop : ('n' :: ("ode-id=".data ++ e)).drop 8 = e := by
      have hdl := List.drop_left "ode-id=".data e
      rw [hlen7] at hdl
      show ("ode-id=".data ++ e).drop 7 = e
      exact hdl
    rw [hdrop, takeWhile_ne_amp_eq_self e hamp]
    rw [if_neg hne]
  | cons x pre' ih =>
    intro hpre
    have hpre' : '=' ∉ pre' := fun hm => hpre (List.mem_cons_of_mem _ hm)
    have hxne : x ≠ '=' := fun heq => hpre (heq ▸ List.mem_cons_self _ _)
    rw [List.cons_append]
    rw [figmaNodeCapture_cons]
    have hcheck : ¬((x :: (pre' ++ ("node-id=".data ++ e))).take 8 = "node-id=".data) := by
      intro htk
      have htk' : x :: (pre' ++ ("node-id=".data ++ e)).take 7 =
          'n' :: "ode-id=".data := htk
      injection htk' with hx htail
      have hin : '=' ∈ (pre' ++ ("node-id=".data ++ e)).take 7 := by
        rw [htail]
        decide
      exact eq_notin_take7 pre' e hpre' hin
    rw [if_neg hcheck]
    exact ih hpre'

theorem nodeIdPat_not_digit_head (c : Char) (rest : List Char)
    (h : c.isDigit = false) : nodeIdPat (c :: rest) = false := by
  unfold nodeIdPat
  rw [List.takeWhile_cons]
  simp [h]

/-- C7: for every valid design-locator URL containing a file id and an
encoded node id — the canonical Figma URL shape with `=`-free file id
and file name, the node-id parameter holding `encodeURIComponent` of an
id of shape `digits (: or -) digits` — extracting the node id
percent-decodes and colon-normalises it back to the id `n`, and
re-encoding `n` through `createFigmaUrl` reproduces a URL carrying
exactly the original encoded node id: the decode/encode pair is a
round-trip. -/
theorem nodeId_roundtrip (fileId fileName n : List Char)
    (hfid : '=' ∉ fileId) (hfname : '=' ∉ fileName) (hn : nodeIdPat n = true) :
    extractNodeId ("https://www.figma.com/file/".data ++ fileId ++ ['/'] ++ fileName ++
        ("?node-id=".data ++ encodeURIComponentChars n)) = some n ∧
      createFigmaUrl fileId (some n) (some fileName) =
        "https://www.figma.com/file/".data ++ fileId ++ ['/'] ++ fileName ++
          ("?node-id=".data ++ encodeURIComponentChars n) := by
  obtain ⟨hclass, hnnil⟩ := nodeIdPat_chars hn
  have hence := encode_no_amp_eq n hclass
  have hamp : ∀ c ∈ encodeURIComponentChars n, c ≠ '&' := fun c hc => (hence c hc).1
  have henne := encode_ne_nil n hnnil hclass
  constructor
  · have hurl : "https://www.figma.com/file/".data ++ fileId ++ ['/'] ++ fileName ++
        ("?node-id=".data ++ encodeURIComponentChars n) =
        ("https://www.figma.com/file/".data ++ fileId ++ ['/'] ++ fileName ++ ['?']) ++
          ("node-id=".data ++ encodeURIComponentChars n) := by
      rw [show ("?node-id=".data : List Char) = ['?'] ++ "node-id=".data from rfl]
      simp [List.append_assoc]
    rw [hurl]
    have hpre : '=' ∉ "https://www.figma.com/file/".data ++ fileId ++ ['/'] ++
        fileName ++ ['?'] := by
      intro hmem
      simp only [List.mem_append, List.mem_singleton] at hmem
      rcases hmem with (((h | h) | h) | h) | h
      · revert h; decide
      · exact hfid h
      · cases h
      · exact hfname h
      · cases h
    have hpat : nodeIdPat (("https://www.figma.com/file/".data ++ fileId ++ ['/'] ++
        fileName ++ ['?']) ++ ("node-id=".data ++ encodeURIComponentChars n)) = false := by
      show nodeIdPat ('h' :: _) = false
      exact nodeIdPat_not_digit_head 'h' _ (by decide)
    unfold extractNodeId
    rw [hpat]
    simp only [Bool.false_eq_true, if_false]
    rw [figmaNodeCapture_append (encodeURIComponentChars n) hamp henne _ hpre]
    show some (decodeNodeId (encodeURIComponentChars n)) = some n
    rw [decodeNodeId_encode n hclass]
  · unfold createFigmaUrl
    simp [List.append_assoc]

/-- Witness for C7 at a concrete locator: file id `abc123xyz`, file
name `Design`, node id `1:2` (encoded `1%3A2`). -/
theorem nodeId_roundtrip_witness :
    extractNodeId ("https://www.figma.com/file/".data ++ "abc123xyz".data ++ ['/'] ++
        "Design".data ++
        ("?node-id=".data ++ encodeURIComponentChars "1:2".data)) = some "1:2".data ∧
      createFigmaUrl "abc123xyz".data (some "1:2".data) (some "Design".data) =
        "https://www.figma.com/file/".data ++ "abc123xyz".data ++ ['/'] ++
          "Design".data ++ ("?node-id=".data ++ encodeURIComponentChars "1:2".data) :=
  nodeId_roundtrip "abc123xyz".data "Design".data "1:2".data
    (by decide) (by decide) (by decide)

/-! ## C8 — Spacing token de-duplication (`src/integrations/figma.ts` lines 315-384)

`processNodeForTokens` and `extractDesignTokensOptimized` of
`FigmaIntegration`.  Figma node numbers are `Rat`; `Math.round` is
`round` (both round half toward `+∞`).  JS `Map` insertion-order
semantics are the `aset`/`alookup` association lists; numeric key
interpolation (`` `w-${width}` ``) uses `toString`, which is injective
on the values exactly as JS number printing is.  The stack traversal
pops from the top of the work list (the source pops and pushes at the
array end; order only permutes map insertion order).  The JS
`sort((a, b) => a - b)` is an ascending sort. -/

/-- `absoluteBoundingBox`, reduced to what token extraction reads. -/
structure BBox where
  width : Rat
  height : Rat
  deriving Repr, DecidableEq

/-- A solid fill color with optional alpha (`a = 1` when absent). -/
structure FillColor where
  r : Rat
  g : Rat
  b : Rat
  a : Option Rat
  deriving Repr, DecidableEq

/-- One paint fill of a node. -/
structure Fill where
  type : String
  color : Option FillColor
  deriving Repr, DecidableEq

/-- A design-document node: the fields token extraction reads, plus
children. -/
inductive FigNode where
  | node (fills : Option (List Fill)) (fontFamily : Option String)
      (bbox : Option BBox) (cornerRadius : Option Rat)
      (children : List FigNode)

/-- The `children` field. -/
def childrenOf : FigNode → List FigNode
  | .node _ _ _ _ children => children

mutual

def figSize : FigNode → Nat
  | .node _ _ _ _ children => 1 + figsSize children

def figsSize : List FigNode → Nat
  | [] => 0
  | n :: rest => figSize n + figsSize rest

end

theorem figsSize_append (a b : List FigNode) :
    figsSize (a ++ b) = figsSize a + figsSize b := by
  induction a with
  | nil => simp [figsSize]
  | cons n rest ih => simp [figsSize, ih]; omega

theorem figsSize_reverse (l : List FigNode) : figsSize l.reverse = figsSize l := by
  induction l with
  | nil => rfl
  | cons n rest ih =>
    simp [List.reverse_cons, figsSize_append, figsSize, ih]
    omega

/-- The four insertion-ordered maps of `DesignTokenCache`. -/
structure TokenMaps where
  colors : List (String × String)
  fonts : List (String × String)
  spacing : List (String × Int)
  borderRadius : List (String × Rat)
  deriving Repr, DecidableEq

/-- JS `Math.round`: half-up rounding, `⌊q + 1/2⌋`, written over the
numerator and denominator so it is directly computable. -/
def jsRound (q : Rat) : Int := (2 * q.num + q.den) / (2 * q.den)

theorem jsRound_eq_round (q : Rat) : jsRound q = round q := by
  rw [round_eq, jsRound]
  have hden : ((q.den : ℚ)) ≠ 0 := by
    exact_mod_cast q.den_nz
  have h1 : q + 1/2 = ((2 * q.num + (q.den : ℤ) : ℤ) : ℚ) / (((2 * q.den : ℕ) : ℕ) : ℚ) := by
    conv_lhs => rw [← Rat.num_div_den q]
    push_cast
    field_simp
    ring
  rw [h1, Rat.floor_intCast_div_natCast]
  push_cast
  rfl

/-- Color extraction over `node.fills` (source lines 350-361): solid
fills keyed by the exact component tuple. -/
def processColors (fills : Option (List Fill)) (m : List (String × String)) :
    List (String × String) :=
  match fills with
  | none => m
  | some fs =>
    fs.foldl (fun acc fill =>
      if fill.type = "SOLID" then
        match fill.color with
        | some col =>
          let a := col.a.getD 1
          aset (toString col.r ++ "-" ++ toString col.g ++ "-" ++ toString col.b ++
              "-" ++ toString a)
            ("rgba(" ++ toString (jsRound (col.r * 255)) ++ ", " ++
              toString (jsRound (col.g * 255)) ++ ", " ++
              toString (jsRound (col.b * 255)) ++ ", " ++ toString a ++ ")") acc
        | none => acc
      else acc) m

/-- Font extraction (source lines 364-366). -/
def processFonts (fontFamily : Option String) (m : List (String × String)) :
    List (String × String) :=
  match fontFamily with
  | none => m
  | some fam => aset fam fam m

/-- Spacing extraction (source lines 369-375): integer-rounded width
and height, keyed `w-`/`h-`, kept only when positive. -/
def processSpacing (bbox : Option BBox) (m : List (String × Int)) :
    List (String × Int) :=
  match bbox with
  | none => m
  | some bb =>
    let w : Int := jsRound bb.width
    let h : Int := jsRound bb.height
    let m₁ := if 0 < w then aset ("w-" ++ toString w) w m else m
    if 0 < h then aset ("h-" ++ toString h) h m₁ else m₁

/-- Corner-radius extraction (source lines 378-383). -/
def processRadius (cornerRadius : Option Rat) (m : List (String × Rat)) :
    List (String × Rat) :=
  match cornerRadius with
  | none => m
  | some cr => aset ("br-" ++ toString cr) cr m

/-- `processNodeForTokens`: updates the four maps from one node. -/
def processNodeForTokens (tc : TokenMaps) : FigNode → TokenMaps
  | .node fills fontFamily bbox cornerRadius _ =>
    { colors := processColors fills tc.colors
      fonts := processFonts fontFamily tc.fonts
      spacing := processSpacing bbox tc.spacing
      borderRadius := processRadius cornerRadius tc.borderRadius }

/-- The `while (nodesToProcess.length > 0)` loop of
`extractDesignTokensOptimized`: pop a node, process it, push its
children. -/
def traverseTokens : TokenMaps → List FigNode → TokenMaps
  | tc, [] => tc
  | tc, n :: stack =>
    traverseTokens (processNodeForTokens tc n) ((childrenOf n).reverse ++ stack)
termination_by tc stack => figsSize stack
decreasing_by
  cases n with
  | node fills ff bbox cr children =>
    simp only [figsSize_append, figsSize_reverse, childrenOf, figsSize, figSize]
    omega

/-- The extracted `DesignTokens` aggregate. -/
structure DesignTokens where
  colors : List String
  fonts : List String
  spacing : List Int
  borderRadius : List Rat
  deriving Repr, DecidableEq

/-- `extractDesignTokensOptimized`: traverse from a fresh cache, then
take the map values, spacing and radii sorted ascending. -/
def extractDesignTokensOptimized (document : FigNode) : DesignTokens :=
  let tc := traverseTokens ⟨[], [], [], []⟩ [document]
  { colors := tc.colors.map Prod.snd
    fonts := tc.fonts.map Prod.snd
    spacing := List.insertionSort (fun a b => a ≤ b) (tc.spacing.map Prod.snd)
    borderRadius := List.insertionSort (fun a b => a ≤ b) (tc.borderRadius.map Prod.snd) }

/-! ### C8 proofs -/

theorem traverseTokens_nil (tc : TokenMaps) : traverseTokens tc [] = tc := by
  simp [traverseTokens]

theorem traverseTokens_cons (tc : TokenMaps) (n : FigNode) (stack : List FigNode) :
    traverseTokens tc (n :: stack) =
      traverseTokens (processNodeForTokens tc n) ((childrenOf n).reverse ++ stack) := by
  simp [traverseTokens]

/-- A single node with a 16 × 16 bounding box and nothing else. -/
def doc16 : FigNode := .node none none (some ⟨16, 16⟩) none []

theorem traverseTokens_doc16 :
    traverseTokens ⟨[], [], [], []⟩ [doc16] =
      processNodeForTokens ⟨[], [], [], []⟩ doc16 :=
  (traverseTokens_cons _ _ _).trans (traverseTokens_nil _)

/-- Every spacing-map entry is keyed by its own value under a `w-` or an
`h-` axis prefix, and the keys are distinct. -/
def SpacingWF (m : List (String × Int)) : Prop :=
  (∀ p ∈ m, p.1 = "w-" ++ toString p.2 ∨ p.1 = "h-" ++ toString p.2) ∧
    (m.map Prod.fst).Nodup

theorem mem_aset {κ α : Type} [DecidableEq κ] (k : κ) (v : α)
    (m : List (κ × α)) : ∀ p ∈ aset k v m, p = (k, v) ∨ p ∈ m := by
  induction m with
  | nil => simp [aset]
  | cons q rest ih =>
    intro p hp
    rw [aset] at hp
    by_cases hk : q.1 = k
    · rw [if_pos hk] at hp
      rcases List.mem_cons.1 hp with h | h
      · exact Or.inl h
      · exact Or.inr (List.mem_cons_of_mem _ h)
    · rw [if_neg hk] at hp
      rcases List.mem_cons.1 hp with h | h
      · exact Or.inr (h ▸ List.mem_cons_self _ _)
      · rcases ih p h with h' | h'
        · exact Or.inl h'
        · exact Or.inr (List.mem_cons_of_mem _ h')

theorem keys_aset_subset {κ α : Type} [DecidableEq κ] (k : κ) (v : α)
    (m : List (κ × α)) :
    ∀ x ∈ (aset k v m).map Prod.fst, x = k ∨ x ∈ m.map Prod.fst := by
  intro x hx
  rcases List.mem_map.1 hx with ⟨p, hp, hpx⟩
  rcases mem_aset k v m p hp with h | h
  · exact Or.inl (hpx ▸ h ▸ rfl)
  · exact Or.inr (hpx ▸ List.mem_map_of_mem Prod.fst h)

theorem keys_aset_nodup {κ α : Type} [DecidableEq κ] (k : κ) (v : α)
    (m : List (κ × α)) (h : (m.map Prod.fst).Nodup) :
    ((aset k v m).map Prod.fst).Nodup := by
  induction m with
  | nil => simp [aset]
  | cons q rest ih =>
    rw [List.map_cons, List.nodup_cons] at h
    rw [aset]
    by_cases hk : q.1 = k
    · rw [if_pos hk]
      simpa [hk] using h
    · rw [if_neg hk]
      rw [List.map_cons, List.nodup_cons]
      refine ⟨fun hmem => ?_, ih h.2⟩
      rcases keys_aset_subset k v rest q.1 hmem with h' | h'
      · exact hk h'
      · exact h.1 h'

theorem spacingWF_aset (k : String) (v : Int) (m : List (String × Int))
    (hk : k = "w-" ++ toString v ∨ k = "h-" ++ toString v)
    (h : SpacingWF m) : SpacingWF (aset k v m) := by
  refine ⟨fun p hp => ?_, keys_aset_nodup k v m h.2⟩
  rcases mem_aset k v m p hp with h' | h'
  · rw [h']
    exact hk
  · exact h.1 p h'

theorem processSpacing_wf (bbox : Option BBox) (m : List (String × Int))
    (h : SpacingWF m) : SpacingWF (processSpacing bbox m) := by
  cases bbox with
  | none => exact h
  | some bb =>
    rw [processSpacing]
    have h₁ : SpacingWF
        (if 0 < jsRound bb.width then
          aset ("w-" ++ toString (jsRound bb.width)) (jsRound bb.width) m
        else m) := by
      split
      · exact spacingWF_aset _ _ m (Or.inl rfl) h
      · exact h
    split
    · exact spacingWF_aset _ _ _ (Or.inr rfl) h₁
    · exact h₁

theorem processNodeForTokens_spacing (tc : TokenMaps) (n : FigNode) :
    (processNodeForTokens tc n).spacing =
      processSpacing (match n with | .node _ _ bbox _ _ => bbox) tc.spacing := by
  cases n
  rfl

theorem figSize_pos (n : FigNode) : 1 ≤ figSize n := by
  cases n
  rw [figSize]
  omega

theorem traverseTokens_spacingWF :
    ∀ (N : Nat) (stack : List FigNode) (tc : TokenMaps),
      figsSize stack ≤ N → SpacingWF tc.spacing →
      SpacingWF (traverseTokens tc stack).spacing := by
  intro N
  induction N with
  | zero =>
    intro stack tc hle hwf
    cases stack with
    | nil => rw [traverseTokens_nil]; exact hwf
    | cons n rest =>
      rw [figsSize] at hle
      have := figSize_pos n
      omega
  | succ N ih =>
    intro stack tc hle hwf
    cases stack with
    | nil => rw [traverseTokens_nil]; exact hwf
    | cons n rest =>
      rw [traverseTokens_cons]
      apply ih
      · cases n with
        | node fills ff bbox cr children =>
          rw [figsSize_append, figsSize_reverse]
          rw [figsSize, figSize] at hle
          rw [childrenOf]
          omega
      · rw [processNodeForTokens_spacing]
        exact processSpacing_wf _ _ hwf

theorem length_le_one_of_forall_eq {α : Type} {l : List α} {b : α}
    (hn : l.Nodup) (h : ∀ y ∈ l, y = b) : l.length ≤ 1 := by
  cases l with
  | nil => simp
  | cons y rest =>
    rw [List.nodup_cons] at hn
    cases rest with
    | nil => simp
    | cons z rest' =>
      exfalso
      apply hn.1
      have hz : z = b := h z (by simp)
      have hy : y = b := h y (by simp)
      rw [hy, ← hz]
      simp

theorem length_le_two_of_nodup_pair {α : Type} {l : List α} {a b : α}
    (hn : l.Nodup) (h : ∀ x ∈ l, x = a ∨ x = b) : l.length ≤ 2 := by
  cases l with
  | nil => simp
  | cons x rest =>
    rw [List.nodup_cons] at hn
    have hrest : rest.length ≤ 1 := by
      rcases h x (by simp) with hx | hx
      · refine length_le_one_of_forall_eq (b := b) hn.2 fun y hy => ?_
        rcases h y (List.mem_cons_of_mem _ hy) with h' | h'
        · have hxy : x = y := hx.trans h'.symm
          exact absurd (hxy ▸ hy) hn.1
        · exact h'
      · refine length_le_one_of_forall_eq (b := a) hn.2 fun y hy => ?_
        rcases h y (List.mem_cons_of_mem _ hy) with h' | h'
        · exact h'
        · have hxy : x = y := hx.trans h'.symm
          exact absurd (hxy ▸ hy) hn.1
    simp only [List.length_cons]
    omega

theorem count_le_two_of_spacingWF (m : List (String × Int))
    (h : SpacingWF m) (v : Int) : (m.map Prod.snd).count v ≤ 2 := by
  have hcount : (m.map Prod.snd).count v =
      (m.filter (fun p => p.2 == v)).length := by
    rw [List.count, List.countP_map, List.countP_eq_length_filter]
    rfl
  rw [hcount]
  have hsub : List.Sublist (m.filter (fun p => p.2 == v)) m :=
    List.filter_sublist m
  have hkeys : ((m.filter (fun p => p.2 == v)).map Prod.fst).Nodup :=
    h.2.sublist (hsub.map Prod.fst)
  have hlen : (m.filter (fun p => p.2 == v)).length =
      ((m.filter (fun p => p.2 == v)).map Prod.fst).length :=
    (List.length_map _ _).symm
  rw [hlen]
  refine length_le_two_of_nodup_pair
    (a := "w-" ++ toString v) (b := "h-" ++ toString v) hkeys fun x hx => ?_
  rcases List.mem_map.1 hx with ⟨p, hp, hpx⟩
  have hmem := List.mem_of_mem_filter hp
  have hval : p.2 = v := by
    have := List.of_mem_filter hp
    exact of_decide_eq_true this
  rcases h.1 p hmem with h' | h'
  · exact Or.inl (hpx ▸ hval ▸ h')
  · exact Or.inr (hpx ▸ hval ▸ h')

/-- C8 (counterexample): the spacing dedup key is axis-prefixed
(`w-16` vs `h-16`), so a single node whose bounding box is 16 × 16
already produces the spacing list `[16, 16]` — a duplicate numeric
value, refuting "the spacing list contains no duplicate numeric
values". -/
theorem spacing_dedup_counterexample :
    (extractDesignTokensOptimized doc16).spacing = [16, 16] ∧
      ¬ (extractDesignTokensOptimized doc16).spacing.Nodup := by
  have h : (extractDesignTokensOptimized doc16).spacing = [16, 16] := by
    rw [extractDesignTokensOptimized, traverseTokens_doc16]
    decide
  exact ⟨h, by rw [h]; decide⟩

/-- C8 (amended): deduplication is keyed per axis on the
integer-rounded value (`w-${width}` / `h-${height}`), so each numeric
value occurs at most twice in the extracted spacing list — at most
once as a width and at most once as a height — for every input
document tree. -/
theorem spacing_count_le_two (document : FigNode) (v : Int) :
    ((extractDesignTokensOptimized document).spacing).count v ≤ 2 := by
  have h : (extractDesignTokensOptimized document).spacing =
      List.insertionSort (fun a b => a ≤ b)
        ((traverseTokens ⟨[], [], [], []⟩ [document]).spacing.map Prod.snd) := rfl
  rw [h]
  have hperm := List.perm_insertionSort (fun a b : Int => a ≤ b)
    ((traverseTokens ⟨[], [], [], []⟩ [document]).spacing.map Prod.snd)
  rw [hperm.count_eq]
  exact count_le_two_of_spacingWF _
    (traverseTokens_spacingWF (figsSize [document]) [document] ⟨[], [], [], []⟩
      le_rfl ⟨by simp, by simp⟩) v
